import Mathlib

/-!
Verification of the `pathtree` path-matching engine.

The Go source stores strings as byte arrays; here a string is a `List Char`
(`Str`), which agrees with the byte view on the ASCII inputs the library is
used with.  Go's `nil` pointers become `Option`, Go maps become association
lists, and in-place mutation becomes explicit state passing: `add` returns the
updated node.  A `none` result of `Add` or of `decodeWildcard` models a Go
runtime panic (out-of-range index), which is the only way those functions can
fail to return.
-/

set_option autoImplicit false

namespace PathTree

/-- Strings as lists of characters (Go byte strings, ASCII). -/
abbrev Str := List Char

/-- Values stored at leaves (`interface{}` in Go; the engine never inspects
them, so a fixed countable type loses nothing). -/
abbrev Val := Nat

/-- Variable bindings, Go's `map[string]string` as an association list. -/
abbrev VarMap := List (Str × Str)

/-- `strings.Index(s, pat)` starting from offset `i`: index of the first
occurrence of `pat` in `s`, or `none` (Go returns `-1`). -/
def strIndexAux (pat : Str) : Str → Nat → Option Nat
  | s, i =>
    if pat.isPrefixOf s then some i
    else
      match s with
      | [] => none
      | _ :: t => strIndexAux pat t (i + 1)

/-- `strings.Index(s, pat)`. -/
def strIndex (s pat : Str) : Option Nat := strIndexAux pat s 0

/-- `strings.Split(s, c)` for a one-character separator: always returns a
non-empty list of groups. -/
def splitChar (c : Char) : Str → List Str
  | [] => [[]]
  | ch :: rest =>
    match splitChar c rest with
    | [] => [[]]
    | g :: gs => if ch = c then [] :: g :: gs else (ch :: g) :: gs

/-- `strings.Join(parts, "/")`. -/
def joinSlash : List Str → Str
  | [] => []
  | [s] => s
  | s :: rest => s ++ '/' :: joinSlash rest

/-- `splitPath` from the source: split on `/`, drop a leading empty element,
and drop a trailing empty element while recording `slashend`.  (Go would
panic indexing an empty list after both drops, but every caller guarantees
the key starts with `/`, so the list after the first drop is non-empty;
the `[]` fallback below is unreachable from the library entry points.) -/
def splitPath (key : Str) : List Str × Bool :=
  let elements := splitChar '/' key
  let elements := match elements with
    | [] :: rest => rest
    | other => other
  match elements.getLast? with
  | some [] => (elements.dropLast, true)
  | _ => (elements, false)

/-- `splitInput` from the source: split a segment into alternating
padding/variable runs, cutting at `:` outside a variable and at `;` inside
one.  The Go version preallocates `Count(s,":")+Count(s,";")+1` slots and
stops splitting when they are exhausted; since every cut consumes one such
character the bound is never reached early, so the straightforward recursion
below is the same function. -/
def splitInputAux : Str → Bool → Str → List Str
  | [], _, cur => [cur.reverse]
  | c :: rest, inb, cur =>
    if (c = ':' ∧ inb = false) ∨ (c = ';' ∧ inb = true) then
      cur.reverse :: splitInputAux rest (!inb) []
    else
      splitInputAux rest inb (c :: cur)

/-- `splitInput` from the source. -/
def splitInput (s : Str) : List Str := splitInputAux s false []

/-- `splitPad` from the source: split a padding run on `|`.  The same
preallocation argument as for `splitInput` applies, so this is a plain
one-character split. -/
def splitPad (s : Str) : List Str := splitChar '|' s

/-- Decimal digits of a natural number (for `strconv.Itoa`). -/
def natToStr (n : Nat) : Str := Nat.toDigits 10 n

/-- `strconv.Itoa` on the `int` values the library produces. -/
def intToStr (i : Int) : Str :=
  if i < 0 then '-' :: natToStr i.natAbs else natToStr i.natAbs

/-- Accumulating digit parser (helper for `strconv.Atoi`). -/
def digitsToNatGo : Str → Nat → Option Nat
  | [], acc => some acc
  | c :: rest, acc =>
    if '0' ≤ c ∧ c ≤ '9' then digitsToNatGo rest (acc * 10 + (c.toNat - '0'.toNat))
    else none

/-- Parse a non-empty all-digit string (helper for `strconv.Atoi`). -/
def digitsToNat : Str → Option Nat
  | [] => none
  | s => digitsToNatGo s 0

/-- `strconv.Atoi`: optional sign, then digits.  (Overflow of 64-bit `int`
is not modelled; the bounds fed to it by this library are small.) -/
def Atoi : Str → Option Int
  | [] => none
  | '+' :: rest => (digitsToNat rest).map Int.ofNat
  | '-' :: rest => (digitsToNat rest).map (fun n => -(n : Int))
  | s => (digitsToNat s).map Int.ofNat

/-- The `Wildcard` struct from the source: a variable name with length
bounds (`0` meaning unconstrained; `strconv.Atoi` can produce negative
bounds, so they are `Int` as in Go). -/
structure Wildcard where
  Name : Str
  Min : Int
  Max : Int
  deriving DecidableEq, Repr

/-- The data of one `Edge` needed while walking back from a leaf to the
root: its `padding`, `wildcards` and `wildend` fields.  The Go code reaches
these through the `parent` back-pointers; since edges are never structurally
modified after creation, recording the traversed edges in the leaf at
insertion time is the same information (the spec's sanctioned alternative to
two-way pointers). -/
structure EdgeFrame where
  padding : List (List Str)
  wildcards : List Wildcard
  wildend : Bool
  deriving DecidableEq, Repr

/-- The `Leaf` struct from the source.  The Go `parent` pointer is replaced
by `chain`, the list of edges from the leaf's node back up to the root. -/
structure Leaf where
  Value : Val
  Wildcards : List Wildcard
  order : Nat
  slashend : Bool
  chain : List EdgeFrame
  deriving DecidableEq, Repr

/-- The two error kinds `Add` can report. -/
inductive AddErr where
  | invalidPattern
  | duplicatePath
  deriving DecidableEq, Repr

mutual
/-- The `Node` struct from the source: outgoing edges keyed by the segment's
representation string, an optional terminal leaf, an optional star leaf, and
the per-node insertion counter.  The Go `edges` map becomes an association
list (Go map iteration order is unspecified; all observable results proved
below are independent of the order). -/
inductive Node where
  | mk (edges : List (Str × Edge)) (leaf : Option Leaf) (star : Option Leaf)
      (leafs : Nat) : Node

/-- The `Edge` struct from the source (the `parent` back-pointer is dropped;
reversal uses the `EdgeFrame` chain recorded in leaves instead). -/
inductive Edge where
  | mk (node : Node) (padding : List (List Str)) (wildcards : List Wildcard)
      (wildend : Bool) (minorder : Nat) : Edge
end

def Node.edges : Node → List (Str × Edge)
  | .mk e _ _ _ => e

def Node.leaf : Node → Option Leaf
  | .mk _ l _ _ => l

def Node.star : Node → Option Leaf
  | .mk _ _ s _ => s

def Node.leafs : Node → Nat
  | .mk _ _ _ c => c

def Edge.node : Edge → Node
  | .mk n _ _ _ _ => n

def Edge.padding : Edge → List (List Str)
  | .mk _ p _ _ _ => p

def Edge.wildcards : Edge → List Wildcard
  | .mk _ _ w _ _ => w

def Edge.wildend : Edge → Bool
  | .mk _ _ _ w _ => w

def Edge.minorder : Edge → Nat
  | .mk _ _ _ _ m => m

/-- `New()` from the source. -/
def Node.new : Node := .mk [] none none 0

/-- Replace the node an edge points to (the Go code mutates it through the
shared pointer). -/
def Edge.setNode (e : Edge) (n : Node) : Edge :=
  .mk n e.padding e.wildcards e.wildend e.minorder

/-- Go map lookup `n.edges[el]` on the association list. -/
def edgesLookup : List (Str × Edge) → Str → Option Edge
  | [], _ => none
  | (k, e) :: rest, key => if k = key then some e else edgesLookup rest key

/-- Replace the entry of an existing key (keys are unique: an entry is only
appended when the key is absent). -/
def edgesUpdate : List (Str × Edge) → Str → Edge → List (Str × Edge)
  | [], _, _ => []
  | (k, e) :: rest, key, e2 =>
    if k = key then (key, e2) :: rest else (k, e) :: edgesUpdate rest key e2

/-- Go map lookup `variables[name]`. -/
def lookupV : VarMap → Str → Option Str
  | [], _ => none
  | (k, v) :: rest, key => if k = key then some v else lookupV rest key

/-- Go `delete(variables, name)`. -/
def deleteV : VarMap → Str → VarMap
  | [], _ => []
  | (k, v) :: rest, key =>
    if k = key then deleteV rest key else (k, v) :: deleteV rest key

/-- Strip a single trailing `;` from a segment (`add`, lines 141-143). -/
def stripSemi (el : Str) : Str :=
  match el.getLast? with
  | some ';' => el.dropLast
  | _ => el

/-- The alternation loop of `add` (lines 148-159): even-indexed parts are
padding runs, odd-indexed parts are variables.  Returns (paddings, vars). -/
def unzipAlt : List Str → List Str × List Str
  | [] => ([], [])
  | p :: rest =>
    let (os, es) := unzipAlt rest
    (p :: es, os)

/-- `decodeWildcard` from the source.  `none` models the Go panic on reading
`s[0]` of an empty token (reachable through patterns like `/x:;y`). -/
def decodeWildcard (s : Str) : Option Wildcard :=
  match s with
  | [] => none
  | c :: _ =>
    let fallback : Wildcard := ⟨s, 0, 0⟩
    if c = '[' ∧ s.length > 2 then
      let pos1 := strIndex s.tail [',']
      let pos2 := strIndex s.tail [']']
      let step1 : Option Wildcard :=
        match pos1, pos2 with
        | none, some p2 =>
          if p2 > 0 ∧ s.length > p2 + 2 then
            (Atoi ((s.drop 1).take p2)).map (fun mn => ⟨s.drop (p2 + 2), mn, mn⟩)
          else none
        | _, _ => none
      let step2 : Option Wildcard :=
        match pos1, pos2 with
        | some p1, some p2 =>
          if p1 > 0 ∧ p2 > p1 + 1 ∧ s.length > p2 + 2 then
            match Atoi ((s.drop 1).take p1),
                Atoi ((s.drop (p1 + 2)).take (p2 - p1 - 1)) with
            | some mn, some mx => some ⟨s.drop (p2 + 2), mn, mx⟩
            | _, _ => none
          else none
        | _, _ => none
      some (step1.getD (step2.getD fallback))
    else
      some fallback

/-- Decode every variable token, propagating a panic as `none`. -/
def decodeAll : List Str → Option (List Wildcard)
  | [] => some []
  | s :: rest =>
    match decodeWildcard s, decodeAll rest with
    | some w, some ws => some (w :: ws)
    | _, _ => none

/-- `add` from the source (lines 105-177), descending one segment at a time.
`chain` accumulates the edges traversed so far (deepest first), standing in
for the Go `parent` pointers; `none` models a panic inside `decodeWildcard`.
When an existing edge is reused, only its child node changes: the Go
statement `item.minorder = order` writes to a local copy of the map value
and is never stored back, so the recorded `minorder` of an edge never
changes after creation. -/
def add (n : Node) (order : Nat) (elements : List Str) (wilds : List Wildcard)
    (chain : List EdgeFrame) (slashend : Bool) (v : Val) :
    Option (Node × Except AddErr Leaf) :=
  match elements with
  | [] =>
    match n.leaf with
    | some _ => some (n, .error .duplicatePath)
    | none =>
      let l : Leaf := ⟨v, wilds, order, slashend, chain⟩
      some (.mk n.edges (some l) n.star n.leafs, .ok l)
  | el :: rest =>
    match el with
    | '*' :: name =>
      match n.star with
      | some _ => some (n, .error .duplicatePath)
      | none =>
        let l : Leaf := ⟨v, wilds ++ [⟨name, 0, 0⟩], order, slashend, chain⟩
        some (.mk n.edges n.leaf (some l) n.leafs, .ok l)
    | _ =>
      let el2 := stripSemi el
      let parts := splitInput el2
      let (es, os) := unzipAlt parts
      match decodeAll os with
      | none => none
      | some varList =>
        let paddings := es.map splitPad
        let wildend : Bool := paddings.length = varList.length
        match edgesLookup n.edges el2 with
        | some e =>
          let frame : EdgeFrame := ⟨e.padding, e.wildcards, e.wildend⟩
          match add e.node order rest (wilds ++ varList) (frame :: chain)
              slashend v with
          | none => none
          | some (child, res) =>
            some (.mk (edgesUpdate n.edges el2 (e.setNode child)) n.leaf n.star
              n.leafs, res)
        | none =>
          let frame : EdgeFrame := ⟨paddings, varList, wildend⟩
          match add Node.new order rest (wilds ++ varList) (frame :: chain)
              slashend v with
          | none => none
          | some (child, res) =>
            some (.mk (n.edges ++ [(el2, .mk child paddings varList wildend order)])
              n.leaf n.star n.leafs, res)

/-- `Add` from the source (lines 96-103).  `none` models the Go panic on
`key[0]` when `key` is the empty string. -/
def Add (n : Node) (key : Str) (v : Val) : Option (Node × Except AddErr Leaf) :=
  match key with
  | [] => none
  | c :: _ =>
    if c ≠ '/' then some (n, .error .invalidPattern)
    else
      let n2 : Node := .mk n.edges n.leaf n.star (n.leafs + 1)
      let (elements, slashend) := splitPath key
      add n2 n2.leafs elements [] [] slashend v

/-- The inner `for _, pad := range pads` loop of `find` (lines 224-244): try
each `|`-alternative of one padding group against the remaining segment
text; on success return the rest of the text and the newly bound variable
values (one value for a non-leading group, none for the leading group).
`wilds.getD` is safe: every edge satisfies the padding/wildcard length
invariant, so `count - 1 < wilds.length` whenever `count ≠ 0`. -/
def matchTryAlts (pads : List Str) (count : Nat) (wilds : List Wildcard)
    (input : Str) : Option (Str × List Str) :=
  match pads with
  | [] => none
  | pad :: more =>
    match strIndex input pad with
    | none => matchTryAlts more count wilds input
    | some pos =>
      if count = 0 ∧ pos > 0 then matchTryAlts more count wilds input
      else if count ≠ 0 then
        let item := wilds.getD (count - 1) ⟨[], 0, 0⟩
        if (item.Min ≠ 0 ∧ (pos : Int) < item.Min) ∨
            (item.Max ≠ 0 ∧ (pos : Int) > item.Max) then
          matchTryAlts more count wilds input
        else
          some (input.drop (pos + pad.length), [input.take pos])
      else
        some (input.drop (pos + pad.length), [])

/-- The outer `for count, pads := range value.padding` loop of `find`
(lines 223-249). -/
def matchGroups (wilds : List Wildcard) :
    List (List Str) → Nat → Str → List Str → Option (Str × List Str)
  | [], _, input, vars => some (input, vars)
  | pads :: more, count, input, vars =>
    match matchTryAlts pads count wilds input with
    | none => none
    | some (input2, newvars) =>
      matchGroups wilds more (count + 1) input2 (vars ++ newvars)

/-- One edge-candidate test of `find` (lines 218-261): walk the padding
groups, then, for a wildcard-terminated edge, bind the remaining text to the
final wildcard subject to its bounds.  Returns the values bound by this
segment, or `none` when the edge does not match. -/
def matchEdge (e : Edge) (el : Str) : Option (List Str) :=
  match matchGroups e.wildcards e.padding 0 el [] with
  | none => none
  | some (input, vars) =>
    if e.wildend then
      let item := e.wildcards.getD (e.wildcards.length - 1) ⟨[], 0, 0⟩
      if (item.Min ≠ 0 ∧ (input.length : Int) < item.Min) ∨
          (item.Max ≠ 0 ∧ (input.length : Int) > item.Max) then none
      else some (vars ++ [input])
    else some vars

/-- `find` from the source (lines 190-272).  `fuel` is always instantiated
with `elements.length` (each level consumes exactly one segment), making the
recursion structural; the `fuel = 0`/non-empty case is unreachable.  The
edge loop is a fold over the association list in place of the Go map
iteration. -/
def findF (fuel : Nat) : Node → List Str → List Str → Option Leaf × List Str :=
  match fuel with
  | 0 => fun n els exp =>
    match els with
    | [] => (n.leaf, exp)
    | _ :: _ => (none, [])
  | fuel + 1 => fun n els exp =>
    match els with
    | [] => (n.leaf, exp)
    | el :: rest =>
      let init : Option Leaf × List Str :=
        match n.star with
        | some s => (some s, exp ++ [joinSlash (el :: rest)])
        | none => (none, [])
      n.edges.foldl
        (fun acc p =>
          let prune : Bool :=
            match acc.1 with
            | some l => decide (l.order < p.2.minorder)
            | none => false
          if prune then acc
          else
            match matchEdge p.2 el with
            | none => acc
            | some vars =>
              match findF fuel p.2.node rest (exp ++ vars) with
              | (some t, te) =>
                match acc.1 with
                | some l => if l.order > t.order then (some t, te) else acc
                | none => (some t, te)
              | (none, _) => acc)
        init

/-- The recursive `find` with the fuel fixed to the number of segments. -/
def find (n : Node) (elements exp : List Str) : Option Leaf × List Str :=
  findF elements.length n elements exp

/-- `Find` from the source (lines 181-188). -/
def Find (n : Node) (key : Str) : Option Leaf × List Str :=
  match key with
  | [] => (none, [])
  | c :: _ =>
    if c ≠ '/' then (none, [])
    else find n (splitPath key).1 []

/-- The missing-wildcard descriptor `"[min,max]name"` (reverse, line 303). -/
def descriptor (w : Wildcard) : Str :=
  '[' :: intToStr w.Min ++ ',' :: intToStr w.Max ++ ']' :: w.Name

/-- The `for key, value := range edge.wildcards` loop of `reverse`
(lines 298-311): substitute each wildcard of one edge in order, consuming
in-bound variables from the map and recording descriptors of the rest.
`padding.getD k []` is safe by the edge length invariant
(`k < wildcards.length ≤ padding.length`), and padding groups are non-empty
(`splitPad` never returns an empty list). -/
def revWilds (padding : List (List Str)) :
    List Wildcard → Nat → VarMap → Str → List Str → Str × VarMap × List Str
  | [], _, vars, output, missed => (output, vars, missed)
  | w :: ws, k, vars, output, missed =>
    let pad := (padding.getD k []).headD []
    match lookupV vars w.Name with
    | some item =>
      if (w.Min ≠ 0 ∧ (item.length : Int) < w.Min) ∨
          (w.Max ≠ 0 ∧ (item.length : Int) > w.Max) then
        revWilds padding ws (k + 1) vars (output ++ pad)
          (missed ++ [descriptor w])
      else
        revWilds padding ws (k + 1) (deleteV vars w.Name)
          (output ++ pad ++ item) missed
    | none =>
      revWilds padding ws (k + 1) vars (output ++ pad)
        (missed ++ [descriptor w])

/-- `reverse` from the source (lines 286-321), walking the recorded chain of
edges from the leaf's node up to the root instead of the Go `parent`
pointers. -/
def reverseGo : List EdgeFrame → Str → VarMap → List Str → Bool →
    Str × VarMap × List Str
  | [], exp, vars, missed, slashend =>
    (if slashend then exp ++ ['/'] else exp, vars, missed)
  | f :: rest, exp, vars, missed, slashend =>
    let (output, vars2, missed2) := revWilds f.padding f.wildcards 0 vars [] missed
    let exp2 :=
      if f.wildend then '/' :: (output ++ exp)
      else '/' :: (output ++ (f.padding.getLast?.getD []).headD [] ++ exp)
    reverseGo rest exp2 vars2 missed2 slashend

/-- `Reverse` from the source (lines 278-284).  A `none` leaf (Go `nil`, or
a hand-made leaf without a parent) reflects the input map unchanged. -/
def Reverse (leaf : Option Leaf) (vmap : VarMap) : Str × VarMap × List Str :=
  match leaf with
  | none => ([], vmap, [])
  | some l => reverseGo l.chain [] vmap [] l.slashend


/-! ## Concrete construction helpers -/

/-- Convenience: string literal to `Str`. -/
def str (s : String) : Str := s.toList

/-- The tree after an `Add`, keeping the old tree on a panic. -/
def addOk (n : Node) (key : Str) (v : Val) : Node :=
  match Add n key v with
  | some (t, _) => t
  | none => n

/-- The leaf returned by a successful `Add`. -/
def addLeaf (n : Node) (key : Str) (v : Val) : Option Leaf :=
  match Add n key v with
  | some (_, .ok l) => some l
  | _ => none

/-! ## C5 -/

/-- C5: `Add` on a pattern not starting with `/` returns a null leaf and the
`InvalidPattern` error with the tree (including the counter) unchanged — but
only when the pattern is non-empty.  On the empty string the Go code indexes
`key[0]` before any check and panics (`none` in this model), contradicting
its own documentation ("Returns an error if those conditions do not hold"),
so the claim's "including the empty string" is a code bug. -/
theorem add_bad_pattern_behavior :
    (∀ (n : Node) (v : Val), Add n [] v = none) ∧
    (∀ (n : Node) (c : Char) (rest : Str) (v : Val), c ≠ '/' →
      Add n (c :: rest) v = some (n, .error .invalidPattern)) := by
  refine ⟨fun n v => rfl, fun n c rest v h => ?_⟩
  simp only [Add]
  rw [if_pos h]

/-- Witness for C5 at concrete inputs. -/
theorem add_bad_pattern_witness :
    Add Node.new [] 0 = none ∧
    Add Node.new (str "x") 0 = some (Node.new, .error .invalidPattern) :=
  ⟨add_bad_pattern_behavior.1 Node.new 0,
   add_bad_pattern_behavior.2 Node.new 'x' [] 0 (by decide)⟩

/-! ## C8 -/

def c8t1 : Node := addOk Node.new (str "/x") 21

def c8t2 : Node := addOk c8t1 (str "/y/z") 22

/-- The inner node reached by the edge `y` of `c8t2`; its own counter is `0`. -/
def c8inner : Node :=
  match edgesLookup c8t2.edges (str "y") with
  | some e => e.node
  | none => Node.new

def c8after : Node := addOk c8inner (str "/z/w") 23

/-- C8: textual edge identity holds, but the claimed `minOrder` lowering
does not happen: the Go statement `item.minorder = order` writes to a local
copy of the map value (`Edge` is a value type) and is never stored back.
After `Add("/x")`, `Add("/y/z")` on the root, calling `Add("/z/w")` on the
inner node (its counter is `0`, so the new insertion order is `1`) reuses the
edge `z` of `minorder = 2`; the spec says the reuse lowers `minOrder` to `1`,
yet the stored `minorder` remains `2`. -/
theorem minorder_never_lowered :
    c8inner.leafs = 0 ∧
    (edgesLookup c8inner.edges (str "z")).map Edge.minorder = some 2 ∧
    (addLeaf c8inner (str "/z/w") 23).isSome = true ∧
    (edgesLookup c8after.edges (str "z")).map Edge.minorder = some 2 := by
  decide

/-! ## C7 -/

def starT : Node := addOk Node.new (str "/*rest") 31

def starLeaf : Option Leaf := addLeaf Node.new (str "/*rest") 31

/-- C7: with `/*rest` registered, every path with at least one segment is
matched by the star leaf with the remaining segments rejoined by `/` as its
single expansion, while a path with zero segments (`"/"`) is not matched by
the star at all. -/
theorem star_one_or_more_segments (key : Str) (h0 : key.head? = some '/') :
    starT.star = starLeaf ∧
    ((splitPath key).1 = [] → Find starT key = (none, [])) ∧
    (∀ el rest, (splitPath key).1 = el :: rest →
      Find starT key = (starLeaf, [joinSlash (el :: rest)])) := by
  obtain ⟨c, k, rfl⟩ : ∃ c k, key = c :: k := by
    cases key with
    | nil => simp at h0
    | cons c k => exact ⟨c, k, rfl⟩
  have hc : c = '/' := by simpa using h0
  subst hc
  refine ⟨rfl, ?_, ?_⟩
  · intro h
    simp only [Find, if_neg (by simp : ¬('/' ≠ '/')), find, h]
    rfl
  · intro el rest h
    simp only [Find, if_neg (by simp : ¬('/' ≠ '/')), find, h]
    simp only [List.length_cons, findF, h]
    rfl

/-- Witness for C7: `/a/b/c` is matched with expansion `a/b/c`; `/` is not
matched. -/
theorem star_one_or_more_witness :
    Find starT (str "/a/b/c") = (starLeaf, [str "a/b/c"]) ∧
    Find starT (str "/") = (none, []) :=
  ⟨(star_one_or_more_segments (str "/a/b/c") (by decide)).2.2
      (str "a") [str "b", str "c"] (by decide),
   (star_one_or_more_segments (str "/") (by decide)).2.1 (by decide)⟩

/-! ## C6 and C10: characterizing `Reverse` -/

/-- All wildcards along a chain of edges, in traversal order. -/
def flatWilds : List EdgeFrame → List Wildcard
  | [] => []
  | f :: rest => f.wildcards ++ flatWilds rest

/-- One wildcard fails during reversal: its name is absent from the map, or
present with a value violating the min/max length bounds. -/
def wcBad (vars : VarMap) (w : Wildcard) : Bool :=
  match lookupV vars w.Name with
  | none => true
  | some item =>
    decide ((w.Min ≠ 0 ∧ (item.length : Int) < w.Min) ∨
      (w.Max ≠ 0 ∧ (item.length : Int) > w.Max))

/-- Spec-level missing list: the descriptors of the failing wildcards, in
order, under the evolving variable map. -/
def missingOf : List Wildcard → VarMap → List Str
  | [], _ => []
  | w :: ws, vars =>
    if wcBad vars w then descriptor w :: missingOf ws vars
    else missingOf ws (deleteV vars w.Name)

/-- Spec-level unused map: the input map minus each successfully substituted
name, in order. -/
def unusedOf : List Wildcard → VarMap → VarMap
  | [], vars => vars
  | w :: ws, vars =>
    if wcBad vars w then unusedOf ws vars
    else unusedOf ws (deleteV vars w.Name)

/-- The names substituted successfully, in order. -/
def consumedOf : List Wildcard → VarMap → List Str
  | [], _ => []
  | w :: ws, vars =>
    if wcBad vars w then consumedOf ws vars
    else w.Name :: consumedOf ws (deleteV vars w.Name)

/-- Spec-level rendering of one edge's wildcard region: each padding group's
first alternative followed by the substituted value (empty on failure). -/
def svRender : List (List Str) → List Wildcard → VarMap → Str
  | _, [], _ => []
  | pads, w :: ws, vars =>
    (pads.headD []).headD [] ++
      (if wcBad vars w then [] else (lookupV vars w.Name).getD []) ++
      svRender pads.tail ws (if wcBad vars w then vars else deleteV vars w.Name)

/-- Spec-level reversal path: segments rendered from the leaf upward, each
prefixed by `/`, with the final padding literal appended on an edge that does
not end in a wildcard. -/
def svPath : List EdgeFrame → VarMap → Str
  | [], _ => []
  | f :: rest, vars =>
    svPath rest (unusedOf f.wildcards vars) ++
      '/' :: (svRender f.padding f.wildcards vars ++
        (if f.wildend then [] else (f.padding.getLast?.getD []).headD []))

theorem unusedOf_append (xs ys : List Wildcard) (vars : VarMap) :
    unusedOf (xs ++ ys) vars = unusedOf ys (unusedOf xs vars) := by
  induction xs generalizing vars with
  | nil => simp [unusedOf]
  | cons w ws ih =>
    simp only [List.cons_append, unusedOf]
    split <;> exact ih _

theorem missingOf_append (xs ys : List Wildcard) (vars : VarMap) :
    missingOf (xs ++ ys) vars = missingOf xs vars ++ missingOf ys (unusedOf xs vars) := by
  induction xs generalizing vars with
  | nil => simp [missingOf, unusedOf]
  | cons w ws ih =>
    simp only [List.cons_append, missingOf, unusedOf]
    split <;> simp [ih]

theorem getD_eq_drop_headD (l : List (List Str)) (k : Nat) :
    l.getD k [] = (l.drop k).headD [] := by
  induction l generalizing k with
  | nil => simp [List.getD]
  | cons x xs ih =>
    cases k with
    | zero => simp [List.getD]
    | succ k => simp [List.getD, ih]

theorem revWilds_spec (padding : List (List Str)) (ws : List Wildcard) :
    ∀ (k : Nat) (vars : VarMap) (output : Str) (missed : List Str),
      revWilds padding ws k vars output missed =
        (output ++ svRender (padding.drop k) ws vars, unusedOf ws vars,
          missed ++ missingOf ws vars) := by
  induction ws with
  | nil =>
    intro k vars output missed
    simp [revWilds, svRender, unusedOf, missingOf]
  | cons w ws ih =>
    intro k vars output missed
    have hpad : (padding.getD k []).headD [] = ((padding.drop k).headD []).headD [] := by
      rw [getD_eq_drop_headD]
    have htail : (padding.drop k).tail = padding.drop (k + 1) := by
      rw [← List.drop_drop]
      simp [List.drop_one]
    rcases hl : lookupV vars w.Name with _ | item
    · simp only [revWilds, svRender, unusedOf, missingOf, wcBad, hl, hpad, htail, ih,
        if_true]
      simp
    · by_cases hb : (w.Min ≠ 0 ∧ (item.length : Int) < w.Min) ∨
          (w.Max ≠ 0 ∧ (item.length : Int) > w.Max)
      · simp only [revWilds, svRender, unusedOf, missingOf, wcBad, hl, hpad, htail, ih,
          if_pos hb, decide_eq_true_eq, if_true, Option.getD_some]
        simp [hb]
      · simp only [revWilds, svRender, unusedOf, missingOf, wcBad, hl, hpad, htail, ih,
          if_neg hb, decide_eq_true_eq, Option.getD_some]
        simp [hb]

theorem reverseGo_spec (chain : List EdgeFrame) :
    ∀ (exp : Str) (vars : VarMap) (missed : List Str) (b : Bool),
      reverseGo chain exp vars missed b =
        (svPath chain vars ++ exp ++ (if b then ['/'] else []),
         unusedOf (flatWilds chain) vars,
         missed ++ missingOf (flatWilds chain) vars) := by
  induction chain with
  | nil =>
    intro exp vars missed b
    cases b <;> simp [reverseGo, svPath, flatWilds, unusedOf, missingOf]
  | cons f rest ih =>
    intro exp vars missed b
    simp only [reverseGo, revWilds_spec, List.drop_zero, List.nil_append]
    rw [ih]
    simp only [svPath, flatWilds, unusedOf_append, missingOf_append]
    cases hw : f.wildend <;> simp [List.append_assoc]

def archiveLeaf : Option Leaf := addLeaf Node.new (str "/Archive_:[2,4]year;") 0

/-- C6: for every leaf and variable map, the reversal walks the wildcards of
each edge on the path from the leaf to the root in order; a wildcard whose
name is absent or whose value violates its bounds contributes the descriptor
`"[min,max]name"` to the missing list, an empty substitution, and leaves the
variable in the map, while a satisfied wildcard substitutes its value and is
removed from the map (`svRender`/`unusedOf`/`missingOf` state exactly this
rule).  Concretely, reversing the leaf of `Add("/Archive_:[2,4]year;", x)`
with `{year: "1"}` yields path `/Archive_`, unused `{year: "1"}` and missing
`["[2,4]year"]`. -/
theorem reverse_wildcard_rule :
    (∀ (l : Leaf) (vars : VarMap),
      Reverse (some l) vars =
        (svPath l.chain vars ++ (if l.slashend then ['/'] else []),
         unusedOf (flatWilds l.chain) vars,
         missingOf (flatWilds l.chain) vars)) ∧
    Reverse archiveLeaf [(str "year", str "1")] =
      (str "/Archive_", [(str "year", str "1")], [str "[2,4]year"]) := by
  constructor
  · intro l vars
    simp [Reverse, reverseGo_spec]
  · rfl

theorem lookupV_deleteV (vars : VarMap) (k name : Str) :
    lookupV (deleteV vars k) name = if name = k then none else lookupV vars name := by
  induction vars with
  | nil => simp [deleteV, lookupV]
  | cons p rest ih =>
    obtain ⟨pk, pv⟩ := p
    simp only [deleteV, lookupV]
    by_cases h1 : pk = k
    · rw [if_pos h1, ih]
      by_cases h2 : name = k
      · simp [h2]
      · have h3 : ¬ pk = name := fun h => h2 (h.symm.trans h1)
        simp [h2, h3]
    · rw [if_neg h1]
      simp only [lookupV]
      rw [ih]
      by_cases h2 : pk = name
      · have h3 : ¬ name = k := fun h => h1 (h2.trans h)
        simp [h2, h3]
      · simp [h2]

theorem unusedOf_eq_foldl (ws : List Wildcard) (vars : VarMap) :
    unusedOf ws vars = (consumedOf ws vars).foldl deleteV vars := by
  induction ws generalizing vars with
  | nil => simp [unusedOf, consumedOf]
  | cons w rest ih =>
    by_cases hb : wcBad vars w = true <;>
      simp [unusedOf, consumedOf, hb, ih, List.foldl_cons]

theorem lookupV_unusedOf (ws : List Wildcard) (vars : VarMap) (name : Str) :
    lookupV (unusedOf ws vars) name =
      (if name ∈ consumedOf ws vars then none else lookupV vars name) := by
  induction ws generalizing vars with
  | nil => simp [unusedOf, consumedOf]
  | cons w rest ih =>
    by_cases hb : wcBad vars w = true
    · simp [unusedOf, consumedOf, hb, ih]
    · simp only [unusedOf, consumedOf, hb, if_false, Bool.false_eq_true]
      rw [ih]
      by_cases h1 : name = w.Name
      · subst h1
        simp [lookupV_deleteV]
      · simp [lookupV_deleteV, h1, List.mem_cons]

/-- C10: the unused map returned by `Reverse` is the input map minus exactly
the successfully substituted names (in Go it is the very same map object,
mutated by `delete` for each consumed name; in this embedding the mutation
is the fold of `deleteV` over the consumed names, and pointwise the result
looks up like the input map with exactly the consumed names removed). -/
theorem reverse_unused_is_input_minus_consumed (l : Leaf) (vars : VarMap) :
    (Reverse (some l) vars).2.1 =
      (consumedOf (flatWilds l.chain) vars).foldl deleteV vars ∧
    ∀ name, lookupV (Reverse (some l) vars).2.1 name =
      (if name ∈ consumedOf (flatWilds l.chain) vars then none
       else lookupV vars name) := by
  constructor
  · simp [Reverse, reverseGo_spec, unusedOf_eq_foldl]
  · intro name
    simp [Reverse, reverseGo_spec, lookupV_unusedOf]

/-! ## Structural lemmas -/

@[simp] theorem Node.edges_mk (e : List (Str × Edge)) (l s : Option Leaf) (c : Nat) :
    (Node.mk e l s c).edges = e := rfl

@[simp] theorem Node.leaf_mk (e : List (Str × Edge)) (l s : Option Leaf) (c : Nat) :
    (Node.mk e l s c).leaf = l := rfl

@[simp] theorem Node.star_mk (e : List (Str × Edge)) (l s : Option Leaf) (c : Nat) :
    (Node.mk e l s c).star = s := rfl

@[simp] theorem Node.leafs_mk (e : List (Str × Edge)) (l s : Option Leaf) (c : Nat) :
    (Node.mk e l s c).leafs = c := rfl

@[simp] theorem Edge.node_mk (n : Node) (p : List (List Str)) (w : List Wildcard)
    (we : Bool) (m : Nat) : (Edge.mk n p w we m).node = n := rfl

@[simp] theorem Edge.padding_mk (n : Node) (p : List (List Str)) (w : List Wildcard)
    (we : Bool) (m : Nat) : (Edge.mk n p w we m).padding = p := rfl

@[simp] theorem Edge.wildcards_mk (n : Node) (p : List (List Str)) (w : List Wildcard)
    (we : Bool) (m : Nat) : (Edge.mk n p w we m).wildcards = w := rfl

@[simp] theorem Edge.wildend_mk (n : Node) (p : List (List Str)) (w : List Wildcard)
    (we : Bool) (m : Nat) : (Edge.mk n p w we m).wildend = we := rfl

@[simp] theorem Edge.minorder_mk (n : Node) (p : List (List Str)) (w : List Wildcard)
    (we : Bool) (m : Nat) : (Edge.mk n p w we m).minorder = m := rfl

theorem Node.eta_node (n : Node) : Node.mk n.edges n.leaf n.star n.leafs = n := by
  cases n; rfl

theorem Edge.eta_edge (e : Edge) :
    Edge.mk e.node e.padding e.wildcards e.wildend e.minorder = e := by
  cases e; rfl

@[simp] theorem Edge.setNode_node (e : Edge) (n : Node) : (e.setNode n).node = n := by
  cases e; rfl

@[simp] theorem Edge.setNode_padding (e : Edge) (n : Node) :
    (e.setNode n).padding = e.padding := by cases e; rfl

@[simp] theorem Edge.setNode_wildcards (e : Edge) (n : Node) :
    (e.setNode n).wildcards = e.wildcards := by cases e; rfl

@[simp] theorem Edge.setNode_wildend (e : Edge) (n : Node) :
    (e.setNode n).wildend = e.wildend := by cases e; rfl

@[simp] theorem Edge.setNode_minorder (e : Edge) (n : Node) :
    (e.setNode n).minorder = e.minorder := by cases e; rfl

theorem edgesLookup_mem {l : List (Str × Edge)} {k : Str} {e : Edge}
    (h : edgesLookup l k = some e) : (k, e) ∈ l := by
  induction l with
  | nil => simp [edgesLookup] at h
  | cons p rest ih =>
    obtain ⟨pk, pe⟩ := p
    by_cases h1 : pk = k
    · subst h1
      simp [edgesLookup] at h
      simp [h]
    · simp only [edgesLookup, if_neg h1] at h
      exact List.mem_cons_of_mem _ (ih h)

theorem edgesUpdate_mem {l : List (Str × Edge)} {k : Str} {enew : Edge}
    {k2 : Str} {e2 : Edge} (h : (k2, e2) ∈ edgesUpdate l k enew) :
    (k2, e2) ∈ l ∨ (k2 = k ∧ e2 = enew) := by
  induction l with
  | nil => simp [edgesUpdate] at h
  | cons p rest ih =>
    obtain ⟨pk, pe⟩ := p
    by_cases h1 : pk = k
    · simp only [edgesUpdate, if_pos h1] at h
      rcases List.mem_cons.1 h with h2 | h2
      · right; exact ⟨congrArg Prod.fst h2, congrArg Prod.snd h2⟩
      · left; exact List.mem_cons_of_mem _ h2
    · simp only [edgesUpdate, if_neg h1] at h
      rcases List.mem_cons.1 h with h2 | h2
      · left; exact List.mem_cons.2 (Or.inl h2)
      · rcases ih h2 with h3 | h3
        · left; exact List.mem_cons_of_mem _ h3
        · right; exact h3

/-- Inversion principle for `add`: the five ways a call can return. -/
theorem add_cases {n : Node} {order : Nat} {els : List Str} {wilds : List Wildcard}
    {chain : List EdgeFrame} {b : Bool} {v : Val} {n2 : Node} {r : Except AddErr Leaf}
    (h : add n order els wilds chain b v = some (n2, r)) :
    (els = [] ∧ (∃ l0, n.leaf = some l0) ∧ n2 = n ∧ r = .error .duplicatePath) ∨
    (els = [] ∧ n.leaf = none ∧
      n2 = .mk n.edges (some ⟨v, wilds, order, b, chain⟩) n.star n.leafs ∧
      r = .ok ⟨v, wilds, order, b, chain⟩) ∨
    (∃ name rest, els = ('*' :: name) :: rest ∧ (∃ l0, n.star = some l0) ∧
      n2 = n ∧ r = .error .duplicatePath) ∨
    (∃ name rest, els = ('*' :: name) :: rest ∧ n.star = none ∧
      n2 = .mk n.edges n.leaf (some ⟨v, wilds ++ [⟨name, 0, 0⟩], order, b, chain⟩) n.leafs ∧
      r = .ok ⟨v, wilds ++ [⟨name, 0, 0⟩], order, b, chain⟩) ∨
    (∃ el rest, els = el :: rest ∧ (∀ name, el ≠ '*' :: name) ∧
      ∃ varList, decodeAll (unzipAlt (splitInput (stripSemi el))).2 = some varList ∧
      ((∃ e child,
          edgesLookup n.edges (stripSemi el) = some e ∧
          add e.node order rest (wilds ++ varList)
            (⟨e.padding, e.wildcards, e.wildend⟩ :: chain) b v = some (child, r) ∧
          n2 = .mk (edgesUpdate n.edges (stripSemi el) (e.setNode child)) n.leaf n.star
            n.leafs) ∨
       (∃ child,
          edgesLookup n.edges (stripSemi el) = none ∧
          add Node.new order rest (wilds ++ varList)
            (⟨(unzipAlt (splitInput (stripSemi el))).1.map splitPad, varList,
                decide (((unzipAlt (splitInput (stripSemi el))).1.map splitPad).length
                  = varList.length)⟩ :: chain) b v = some (child, r) ∧
          n2 = .mk (n.edges ++ [(stripSemi el,
              .mk child ((unzipAlt (splitInput (stripSemi el))).1.map splitPad) varList
                (decide (((unzipAlt (splitInput (stripSemi el))).1.map splitPad).length
                  = varList.length)) order)])
            n.leaf n.star n.leafs))) := by
  cases els with
  | nil =>
    simp only [add] at h
    cases hle : n.leaf with
    | some l0 =>
      rw [hle] at h
      simp only [Option.some.injEq, Prod.mk.injEq] at h
      exact Or.inl ⟨rfl, ⟨l0, rfl⟩, h.1.symm, h.2.symm⟩
    | none =>
      rw [hle] at h
      simp only [Option.some.injEq, Prod.mk.injEq] at h
      exact Or.inr (Or.inl ⟨rfl, rfl, h.1.symm, h.2.symm⟩)
  | cons el rest =>
    by_cases hstar : ∀ name, el ≠ '*' :: name
    · refine Or.inr (Or.inr (Or.inr (Or.inr ⟨el, rest, rfl, hstar, ?_⟩)))
      simp only [add] at h
      split at h
      · exact absurd h (by simp)
      · rename_i varList hdec
        refine ⟨varList, hdec, ?_⟩
        split at h
        · rename_i e hlook
          split at h
          · exact absurd h (by simp)
          · rename_i child res hrec
            simp only [Option.some.injEq, Prod.mk.injEq] at h
            exact Or.inl ⟨e, child, hlook, by rw [hrec, h.2], h.1.symm⟩
        · rename_i hlook
          split at h
          · exact absurd h (by simp)
          · rename_i child res hrec
            simp only [Option.some.injEq, Prod.mk.injEq] at h
            exact Or.inr ⟨child, hlook, by rw [hrec, h.2], h.1.symm⟩
    · push_neg at hstar
      obtain ⟨name, rfl⟩ := hstar
      simp only [add] at h
      cases hst : n.star with
      | some l0 =>
        rw [hst] at h
        simp only [Option.some.injEq, Prod.mk.injEq] at h
        exact Or.inr (Or.inr (Or.inl ⟨name, rest, rfl, ⟨l0, rfl⟩, h.1.symm, h.2.symm⟩))
      | none =>
        rw [hst] at h
        simp only [Option.some.injEq, Prod.mk.injEq] at h
        exact Or.inr (Or.inr (Or.inr (Or.inl ⟨name, rest, rfl, rfl, h.1.symm, h.2.symm⟩)))

/-- Membership of an edge anywhere in a tree (transitively). -/
inductive EdgeIn : Node → Edge → Prop where
  | here {n : Node} {k : Str} {e : Edge} : (k, e) ∈ n.edges → EdgeIn n e
  | deeper {n : Node} {k : Str} {e e2 : Edge} : (k, e) ∈ n.edges → EdgeIn e.node e2 →
      EdgeIn n e2

/-- Trees reachable from `New()` by a sequence of `Add` calls on the root
(successful or failing with an error; a panicking call leaves no tree). -/
inductive Built : Node → Prop where
  | base : Built Node.new
  | step {t t2 : Node} {key : Str} {v : Val} {r : Except AddErr Leaf} :
      Built t → Add t key v = some (t2, r) → Built t2

theorem edgeIn_congr {n m : Node} {e : Edge} (hedges : n.edges = m.edges)
    (h : EdgeIn n e) : EdgeIn m e := by
  cases h with
  | here hmem => exact EdgeIn.here (hedges ▸ hmem)
  | deeper hmem hdeep => exact EdgeIn.deeper (hedges ▸ hmem) hdeep

theorem edgeIn_new {e : Edge} (h : EdgeIn Node.new e) : False := by
  cases h with
  | here hmem => simp [Node.new] at hmem
  | deeper hmem _ => simp [Node.new] at hmem

theorem unzipAlt_len (l : List Str) :
    (unzipAlt l).1.length = (unzipAlt l).2.length ∨
    (unzipAlt l).1.length = (unzipAlt l).2.length + 1 := by
  induction l with
  | nil => simp [unzipAlt]
  | cons p rest ih =>
    rcases ih with h | h <;> simp [unzipAlt] <;> omega

theorem decodeAll_len {l : List Str} {ws : List Wildcard} (h : decodeAll l = some ws) :
    ws.length = l.length := by
  induction l generalizing ws with
  | nil => simp [decodeAll] at h; simp [← h]
  | cons s rest ih =>
    simp only [decodeAll] at h
    split at h
    · rename_i w ws2 hw hrest
      cases h
      simp [ih hrest]
    · exact absurd h (by simp)

/-- The claimed structural invariant of a single edge. -/
def lenOk (e : Edge) : Prop :=
  e.padding.length = e.wildcards.length + (if e.wildend then 0 else 1)

theorem add_lenOk {els : List Str} :
    ∀ {n : Node} {order : Nat} {wilds : List Wildcard} {chain : List EdgeFrame}
      {b : Bool} {v : Val} {n2 : Node} {r : Except AddErr Leaf},
      (∀ e, EdgeIn n e → lenOk e) → add n order els wilds chain b v = some (n2, r) →
      ∀ e, EdgeIn n2 e → lenOk e := by
  induction els with
  | nil =>
    intro n order wilds chain b v n2 r hinv h e he
    rcases add_cases h with ⟨_, _, rfl, _⟩ | ⟨_, _, rfl, _⟩ | ⟨_, _, habs, _⟩ |
      ⟨_, _, habs, _⟩ | ⟨_, _, habs, _⟩
    · exact hinv e he
    · exact hinv e (edgeIn_congr (by simp) he)
    · exact absurd habs (by simp)
    · exact absurd habs (by simp)
    · exact absurd habs (by simp)
  | cons el rest ih =>
    intro n order wilds chain b v n2 r hinv h e he
    rcases add_cases h with ⟨habs, _⟩ | ⟨habs, _⟩ | ⟨name, rest2, heq, _, rfl, _⟩ |
      ⟨name, rest2, heq, _, rfl, _⟩ | ⟨el2, rest2, heq, hns, varList, hdec, hbody⟩
    · exact absurd habs (by simp)
    · exact absurd habs (by simp)
    · exact hinv e he
    · exact hinv e (edgeIn_congr (by simp) he)
    · injection heq with e1 e2
      subst e1
      subst e2
      have hsub : ∀ e0 (k : Str), (k, e0) ∈ n.edges → ∀ e1, EdgeIn e0.node e1 → lenOk e1 :=
        fun e0 k hk e1 he1 => hinv e1 (EdgeIn.deeper hk he1)
      rcases hbody with ⟨e0, child, hlook, hrec, rfl⟩ | ⟨child, hlook, hrec, rfl⟩
      · have hchild : ∀ e1, EdgeIn child e1 → lenOk e1 :=
          ih (hsub e0 _ (edgesLookup_mem hlook)) hrec
        cases he with
        | here hmem =>
          simp only [Node.edges_mk] at hmem
          rcases edgesUpdate_mem hmem with hmem2 | ⟨_, rfl⟩
          · exact hinv _ (EdgeIn.here hmem2)
          · have h0 : lenOk e0 := hinv e0 (EdgeIn.here (edgesLookup_mem hlook))
            simpa [lenOk] using h0
        | deeper hmem hdeep =>
          rename_i e1
          simp only [Node.edges_mk] at hmem
          rcases edgesUpdate_mem hmem with hmem2 | ⟨_, rfl⟩
          · exact hinv _ (EdgeIn.deeper hmem2 hdeep)
          · exact hchild _ (by simpa using hdeep)
      · have hchild : ∀ e1, EdgeIn child e1 → lenOk e1 :=
          ih (fun e1 he1 => absurd he1 edgeIn_new) hrec
        have hnew : lenOk (Edge.mk child
            ((unzipAlt (splitInput (stripSemi el))).1.map splitPad) varList
            (decide (((unzipAlt (splitInput (stripSemi el))).1.map splitPad).length
              = varList.length)) order) := by
          simp only [lenOk, Edge.padding_mk, Edge.wildcards_mk, Edge.wildend_mk]
          have hlen := decodeAll_len hdec
          rcases unzipAlt_len (splitInput (stripSemi el)) with h1 | h1 <;>
            simp [List.length_map, hlen, h1]
        cases he with
        | here hmem =>
          simp only [Node.edges_mk] at hmem
          rcases List.mem_append.1 hmem with hmem2 | hmem2
          · exact hinv _ (EdgeIn.here hmem2)
          · simp only [List.mem_singleton] at hmem2
            obtain rfl : e = _ := congrArg Prod.snd hmem2
            exact hnew
        | deeper hmem hdeep =>
          rename_i e1
          simp only [Node.edges_mk] at hmem
          rcases List.mem_append.1 hmem with hmem2 | hmem2
          · exact hinv _ (EdgeIn.deeper hmem2 hdeep)
          · simp only [List.mem_singleton] at hmem2
            have he1 : e1 = _ := congrArg Prod.snd hmem2
            subst he1
            exact hchild _ (by simpa using hdeep)

theorem built_lenOk {t : Node} (hb : Built t) : ∀ e, EdgeIn t e → lenOk e := by
  induction hb with
  | base => exact fun e he => absurd he edgeIn_new
  | step hb hadd ih =>
    rename_i t t2 key v r
    intro e he
    cases key with
    | nil => exact absurd hadd (by simp [Add])
    | cons c k =>
      by_cases hc : c = '/'
      · subst hc
        simp only [Add, if_neg (by simp : ¬('/' ≠ '/'))] at hadd
        exact add_lenOk (fun e1 he1 => ih e1 (edgeIn_congr (by simp) he1)) hadd e he
      · rw [Add.eq_def] at hadd
        simp only [if_pos hc] at hadd
        simp only [Option.some.injEq, Prod.mk.injEq] at hadd
        obtain ⟨rfl, _⟩ := hadd
        exact ih e he

/-- C9: every edge reachable in a tree built by a sequence of root `Add`
calls satisfies `len(padding) == len(wildcards) + (wildend ? 0 : 1)`; edges
are never structurally modified after creation, so this holds in every
reachable state. -/
theorem edge_length_invariant (t : Node) (e : Edge) (hb : Built t) (he : EdgeIn t e) :
    e.padding.length = e.wildcards.length + (if e.wildend then 0 else 1) :=
  built_lenOk hb e he

def t9 : Node := addOk Node.new (str "/a:b;c") 41

def l9 : Leaf := (addLeaf Node.new (str "/a:b;c") 41).getD ⟨0, [], 0, false, []⟩

def e9 : Edge :=
  match edgesLookup t9.edges (str "a:b;c") with
  | some e => e
  | none => .mk Node.new [] [] false 0

/-- Witness for C9 on the tree of `Add("/a:b;c")` (2 padding groups, 1
wildcard, not wildcard-terminated). -/
theorem edge_length_invariant_witness :
    Built t9 ∧ EdgeIn t9 e9 ∧
    e9.padding.length = e9.wildcards.length + (if e9.wildend then 0 else 1) := by
  have hadd : Add Node.new (str "/a:b;c") 41 = some (t9, .ok l9) := rfl
  have hb : Built t9 := Built.step Built.base hadd
  have hmem : (str "a:b;c", e9) ∈ t9.edges := by
    have he : t9.edges = [(str "a:b;c", e9)] := rfl
    rw [he]
    exact List.mem_singleton.2 rfl
  exact ⟨hb, EdgeIn.here hmem, edge_length_invariant t9 e9 hb (EdgeIn.here hmem)⟩

/-! ## C4: duplicate registration -/

theorem edgesLookup_update_self {l : List (Str × Edge)} {k : Str} {e enew : Edge}
    (h : edgesLookup l k = some e) :
    edgesLookup (edgesUpdate l k enew) k = some enew := by
  induction l with
  | nil => simp [edgesLookup] at h
  | cons p rest ih =>
    obtain ⟨pk, pe⟩ := p
    by_cases h1 : pk = k
    · simp [edgesUpdate, edgesLookup, h1]
    · simp only [edgesLookup, if_neg h1] at h
      simp [edgesUpdate, edgesLookup, h1, ih h]

theorem edgesUpdate_self {l : List (Str × Edge)} {k : Str} {e : Edge}
    (h : edgesLookup l k = some e) : edgesUpdate l k e = l := by
  induction l with
  | nil => simp [edgesUpdate]
  | cons p rest ih =>
    obtain ⟨pk, pe⟩ := p
    by_cases h1 : pk = k
    · subst h1
      simp only [edgesLookup, if_pos rfl] at h
      simp at h
      simp [edgesUpdate, h]
    · simp only [edgesLookup, if_neg h1] at h
      simp [edgesUpdate, h1, ih h]

theorem edgesLookup_append_right {l : List (Str × Edge)} {k : Str} {e : Edge}
    (h : edgesLookup l k = none) :
    edgesLookup (l ++ [(k, e)]) k = some e := by
  induction l with
  | nil => simp [edgesLookup]
  | cons p rest ih =>
    obtain ⟨pk, pe⟩ := p
    by_cases h1 : pk = k
    · simp [edgesLookup, h1] at h
    · simp only [edgesLookup, if_neg h1] at h
      simp [edgesLookup, h1, ih h]

theorem edgesUpdate_mem_self {l : List (Str × Edge)} {k : Str} {e enew : Edge}
    (h : edgesLookup l k = some e) : (k, enew) ∈ edgesUpdate l k enew := by
  induction l with
  | nil => simp [edgesLookup] at h
  | cons p rest ih =>
    obtain ⟨pk, pe⟩ := p
    by_cases h1 : pk = k
    · simp [edgesUpdate, h1]
    · simp only [edgesLookup, if_neg h1] at h
      simp only [edgesUpdate, if_neg h1]
      exact List.mem_cons_of_mem _ (ih h)

/-- Repeating a successful `add` with the same segment list fails with the
duplicate-path error and returns the tree unchanged (up to the untouched
counter of the node it was invoked on). -/
theorem add_dup {els : List Str} :
    ∀ {n : Node} {order : Nat} {wilds : List Wildcard} {chain : List EdgeFrame}
      {b : Bool} {v : Val} {n2 : Node} {l : Leaf},
      add n order els wilds chain b v = some (n2, .ok l) →
      ∀ (L order2 : Nat) (wilds2 : List Wildcard) (chain2 : List EdgeFrame) (v2 : Val),
        add (Node.mk n2.edges n2.leaf n2.star L) order2 els wilds2 chain2 b v2 =
          some (Node.mk n2.edges n2.leaf n2.star L, .error .duplicatePath) := by
  induction els with
  | nil =>
    intro n order wilds chain b v n2 l h L order2 wilds2 chain2 v2
    rcases add_cases h with ⟨_, _, _, habs⟩ | ⟨_, _, rfl, _⟩ | ⟨_, _, habs, _⟩ |
      ⟨_, _, habs, _⟩ | ⟨_, _, habs, _⟩
    · exact absurd habs (by simp)
    · simp [add]
    · exact absurd habs (by simp)
    · exact absurd habs (by simp)
    · exact absurd habs (by simp)
  | cons el rest ih =>
    intro n order wilds chain b v n2 l h L order2 wilds2 chain2 v2
    rcases add_cases h with ⟨habs, _⟩ | ⟨habs, _⟩ | ⟨name, rest2, heq, _, _, habs⟩ |
      ⟨name, rest2, heq, _, rfl, _⟩ | ⟨el2, rest2, heq, hns, varList, hdec, hbody⟩
    · exact absurd habs (by simp)
    · exact absurd habs (by simp)
    · exact absurd habs (by simp)
    · injection heq with e1 e2
      subst e1
      subst e2
      simp [add]
    · injection heq with e1 e2
      subst e1
      subst e2
      have hstar := hns
      rcases hbody with ⟨e0, child, hlook, hrec, rfl⟩ | ⟨child, hlook, hrec, rfl⟩
      · have ihc := ih hrec child.leafs order2 (wilds2 ++ varList)
          (⟨(e0.setNode child).padding, (e0.setNode child).wildcards,
            (e0.setNode child).wildend⟩ :: chain2) v2
        rw [Node.eta_node] at ihc
        simp only [add]
        rw [hdec]
        have hlook2 : edgesLookup (edgesUpdate n.edges (stripSemi el) (e0.setNode child))
            (stripSemi el) = some (e0.setNode child) :=
          edgesLookup_update_self hlook
        simp only [Node.edges_mk]
        rw [hlook2]
        simp only [Edge.setNode_node]
        simp only [ihc]
        have hsn : (e0.setNode child).setNode child = e0.setNode child := by
          cases e0; rfl
        rw [hsn, edgesUpdate_self hlook2]
        simp
      · have hlook2 := edgesLookup_append_right
          (e := Edge.mk child ((unzipAlt (splitInput (stripSemi el))).1.map splitPad) varList
            (decide (((unzipAlt (splitInput (stripSemi el))).1.map splitPad).length
              = varList.length)) order) hlook
        have ihc := ih hrec child.leafs order2 (wilds2 ++ varList)
          (⟨(unzipAlt (splitInput (stripSemi el))).1.map splitPad, varList,
            decide (((unzipAlt (splitInput (stripSemi el))).1.map splitPad).length
              = varList.length)⟩ :: chain2) v2
        rw [Node.eta_node] at ihc
        simp only [add]
        rw [hdec]
        simp only [Node.edges_mk]
        rw [hlook2]
        simp only [Edge.node_mk, Edge.padding_mk, Edge.wildcards_mk, Edge.wildend_mk]
        simp only [ihc]
        rw [show (Edge.mk child ((unzipAlt (splitInput (stripSemi el))).1.map splitPad)
            varList (decide (((unzipAlt (splitInput (stripSemi el))).1.map splitPad).length
              = varList.length)) order).setNode child =
            Edge.mk child ((unzipAlt (splitInput (stripSemi el))).1.map splitPad) varList
              (decide (((unzipAlt (splitInput (stripSemi el))).1.map splitPad).length
                = varList.length)) order from rfl,
          edgesUpdate_self hlook2]
        simp

/-- A leaf registered anywhere in a tree. -/
inductive LeafIn : Node → Leaf → Prop where
  | leaf {n : Node} {l : Leaf} : n.leaf = some l → LeafIn n l
  | star {n : Node} {l : Leaf} : n.star = some l → LeafIn n l
  | edge {n : Node} {k : Str} {e : Edge} {l : Leaf} : (k, e) ∈ n.edges →
      LeafIn e.node l → LeafIn n l

theorem leafIn_congr {n m : Node} {l : Leaf} (he : n.edges = m.edges)
    (hl : n.leaf = m.leaf) (hs : n.star = m.star) (h : LeafIn n l) : LeafIn m l := by
  cases h with
  | leaf h0 => exact LeafIn.leaf (hl ▸ h0)
  | star h0 => exact LeafIn.star (hs ▸ h0)
  | edge hmem hdeep => exact LeafIn.edge (he ▸ hmem) hdeep

/-- A successful `add` leaves its new leaf registered in the result. -/
theorem add_leafIn {els : List Str} :
    ∀ {n : Node} {order : Nat} {wilds : List Wildcard} {chain : List EdgeFrame}
      {b : Bool} {v : Val} {n2 : Node} {l : Leaf},
      add n order els wilds chain b v = some (n2, .ok l) → LeafIn n2 l := by
  induction els with
  | nil =>
    intro n order wilds chain b v n2 l h
    rcases add_cases h with ⟨_, _, _, habs⟩ | ⟨_, _, rfl, hr⟩ | ⟨_, _, habs, _⟩ |
      ⟨_, _, habs, _⟩ | ⟨_, _, habs, _⟩
    · exact absurd habs (by simp)
    · injection hr with hr2
      exact LeafIn.leaf (by simp [hr2])
    · exact absurd habs (by simp)
    · exact absurd habs (by simp)
    · exact absurd habs (by simp)
  | cons el rest ih =>
    intro n order wilds chain b v n2 l h
    rcases add_cases h with ⟨habs, _⟩ | ⟨habs, _⟩ | ⟨name, rest2, heq, _, _, habs⟩ |
      ⟨name, rest2, heq, _, rfl, hr⟩ | ⟨el2, rest2, heq, hns, varList, hdec, hbody⟩
    · exact absurd habs (by simp)
    · exact absurd habs (by simp)
    · exact absurd habs (by simp)
    · injection hr with hr2
      exact LeafIn.star (by simp [hr2])
    · injection heq with he1 he2
      subst he1
      subst he2
      rcases hbody with ⟨e0, child, hlook, hrec, rfl⟩ | ⟨child, hlook, hrec, rfl⟩
      · refine LeafIn.edge (k := stripSemi el)
          (e := e0.setNode child) ?_ ?_
        · have hmem2 := @edgesUpdate_mem_self n.edges (stripSemi el) e0
            (e0.setNode child) hlook
          simpa using hmem2
        · simpa using ih hrec
      · refine LeafIn.edge (k := stripSemi el)
          (e := Edge.mk child ((unzipAlt (splitInput (stripSemi el))).1.map splitPad) varList
            (decide (((unzipAlt (splitInput (stripSemi el))).1.map splitPad).length
              = varList.length)) order) ?_ ?_
        · simp only [Node.edges_mk]
          exact List.mem_append.2 (Or.inr (List.mem_singleton.2 rfl))
        · simpa using ih hrec

/-- `find` never reads the insertion counter of any node. -/
theorem findF_counter (fuel : Nat) (E : List (Str × Edge)) (lf st : Option Leaf)
    (c1 c2 : Nat) (els exp : List Str) :
    findF fuel (Node.mk E lf st c1) els exp = findF fuel (Node.mk E lf st c2) els exp := by
  cases fuel <;> rfl

/-- C4 counterexample data: `/:x` first, then `/ab` twice. -/
def c4t1 : Node := addOk Node.new (str "/:x") 10

def c4t2 : Node := addOk c4t1 (str "/ab") 11

def c4l1 : Leaf := (addLeaf Node.new (str "/:x") 10).getD ⟨0, [], 0, false, []⟩

def c4l2 : Leaf := (addLeaf c4t1 (str "/ab") 11).getD ⟨0, [], 0, false, []⟩

def c4t3 : Node := addOk c4t2 (str "/ab") 12

/-- Counterexample to C4 as stated: the duplicate `Add` does fail with the
duplicate-path error, but `Find` afterwards does not resolve to the first
registration's leaf — the earlier wildcard pattern `/:x` (order 1) shadows
`/ab` (order 2), so `Find("/ab")` returns the `/:x` leaf both before and
after the failed duplicate call. -/
theorem duplicate_add_cx :
    Add c4t2 (str "/ab") 12 = some (c4t3, .error .duplicatePath) ∧
    Find c4t3 (str "/ab") = (some c4l1, [str "ab"]) ∧
    c4l1 ≠ c4l2 ∧ c4l1.order = 1 ∧ c4l2.order = 2 := by
  refine ⟨rfl, rfl, ?_, rfl, rfl⟩
  decide

/-- C4 (amended): for every tree and pattern, a second `Add` of the same
pattern fails with `DuplicatePath` and leaves the tree unchanged except for
the incremented root counter; the first leaf is still registered, and `Find`
returns exactly what it returned before the failed call on every key (which
need not be the first leaf itself when an older wildcard pattern shadows
it). -/
theorem duplicate_add_rejected (t t1 t2 : Node) (p : Str) (v1 v2 : Val) (l : Leaf)
    (r : Except AddErr Leaf)
    (h1 : Add t p v1 = some (t1, .ok l))
    (h2 : Add t1 p v2 = some (t2, r)) :
    r = .error .duplicatePath ∧
    t2 = Node.mk t1.edges t1.leaf t1.star (t1.leafs + 1) ∧
    LeafIn t2 l ∧
    (∀ key, Find t2 key = Find t1 key) := by
  cases p with
  | nil => exact absurd h1 (by simp [Add])
  | cons c k =>
    by_cases hc : c = '/'
    · subst hc
      simp only [Add, if_neg (by simp : ¬('/' ≠ '/'))] at h1 h2
      have hdup := add_dup h1 (t1.leafs + 1)
        (Node.mk t1.edges t1.leaf t1.star (t1.leafs + 1)).leafs [] []  v2
      rw [hdup] at h2
      simp only [Option.some.injEq, Prod.mk.injEq] at h2
      obtain ⟨ht2, hr⟩ := h2
      subst ht2
      refine ⟨hr.symm, rfl, ?_, ?_⟩
      · exact leafIn_congr (by simp) (by simp) (by simp) (add_leafIn h1)
      · intro key
        cases key with
        | nil => rfl
        | cons c2 k2 =>
          by_cases hc2 : c2 = '/'
          · subst hc2
            simp only [Find, if_neg (by simp : ¬('/' ≠ '/')), find]
            have := findF_counter (splitPath ('/' :: k2)).1.length t1.edges t1.leaf
              t1.star (t1.leafs + 1) t1.leafs (splitPath ('/' :: k2)).1 []
            rw [this, Node.eta_node]
          · simp only [Find, if_pos hc2]
    · rw [Add.eq_def] at h1
      simp only [if_pos hc] at h1
      exact absurd h1 (by simp)

/-- Witness for C4 (amended) at the trees of the counterexample. -/
theorem duplicate_add_rejected_witness :
    Add c4t1 (str "/ab") 11 = some (c4t2, .ok c4l2) ∧
    Add c4t2 (str "/ab") 12 = some (c4t3, .error .duplicatePath) ∧
    c4t3 = Node.mk c4t2.edges c4t2.leaf c4t2.star (c4t2.leafs + 1) ∧
    LeafIn c4t3 c4l2 ∧ Find c4t3 (str "/ab") = Find c4t2 (str "/ab") := by
  have h1 : Add c4t1 (str "/ab") 11 = some (c4t2, .ok c4l2) := rfl
  have h2 : Add c4t2 (str "/ab") 12 = some (c4t3, .error .duplicatePath) := rfl
  have h := duplicate_add_rejected c4t1 c4t2 c4t3 (str "/ab") 11 12 c4l2
    (.error .duplicatePath) h1 h2
  exact ⟨h1, h2, h.2.1, h.2.2.1, h.2.2.2 (str "/ab")⟩

/-! ## C1: `Find` returns the minimum-order matching leaf -/

/-- The matching relation induced by `find` without pruning: the set of
leaves reachable by consuming the segments with the per-segment edge
matcher, or by a star at a node with at least one segment remaining. -/
inductive MatchLeaf : Node → List Str → Leaf → Prop where
  | leaf {n : Node} {l : Leaf} : n.leaf = some l → MatchLeaf n [] l
  | star {n : Node} {l : Leaf} {el : Str} {rest : List Str} : n.star = some l →
      MatchLeaf n (el :: rest) l
  | edge {n : Node} {k : Str} {e : Edge} {l : Leaf} {el : Str} {rest : List Str}
      {vars : List Str} : (k, e) ∈ n.edges → matchEdge e el = some vars →
      MatchLeaf e.node rest l → MatchLeaf n (el :: rest) l

/-- Every edge's `minorder` is a lower bound for the insertion orders of all
leaves in its subtree (recursively at every node). -/
inductive MinInv : Node → Prop where
  | mk {n : Node} :
      (∀ k e, (k, e) ∈ n.edges → ∀ l, LeafIn e.node l → e.minorder ≤ l.order) →
      (∀ k e, (k, e) ∈ n.edges → MinInv e.node) → MinInv n

/-- All minorders in a tree are bounded by `order`. -/
def OrdBound (n : Node) (order : Nat) : Prop := ∀ e, EdgeIn n e → e.minorder ≤ order

theorem minInv_sub {n : Node} {k : Str} {e : Edge} (h : MinInv n)
    (hmem : (k, e) ∈ n.edges) :
    (∀ l, LeafIn e.node l → e.minorder ≤ l.order) ∧ MinInv e.node := by
  cases h with
  | mk h0 h1 => exact ⟨h0 k e hmem, h1 k e hmem⟩

theorem minInv_congr {n m : Node} (he : n.edges = m.edges) (h : MinInv n) : MinInv m := by
  cases h with
  | mk h0 h1 =>
    exact MinInv.mk (fun k e hmem => h0 k e (he ▸ hmem))
      (fun k e hmem => h1 k e (he ▸ hmem))

theorem minInv_new : MinInv Node.new :=
  MinInv.mk (fun k e hmem => absurd hmem (by simp [Node.new]))
    (fun k e hmem => absurd hmem (by simp [Node.new]))

theorem matchLeaf_leafIn {n : Node} {els : List Str} {l : Leaf}
    (h : MatchLeaf n els l) : LeafIn n l := by
  induction h with
  | leaf h0 => exact LeafIn.leaf h0
  | star h0 => exact LeafIn.star h0
  | edge hmem hme hml ih => exact LeafIn.edge hmem ih

/-- The edge-candidate step of the `find` loop, named for reasoning. -/
def findStep (fuel : Nat) (el : Str) (rest exp : List Str)
    (acc : Option Leaf × List Str) (p : Str × Edge) : Option Leaf × List Str :=
  let prune : Bool :=
    match acc.1 with
    | some l => decide (l.order < p.2.minorder)
    | none => false
  if prune then acc
  else
    match matchEdge p.2 el with
    | none => acc
    | some vars =>
      match findF fuel p.2.node rest (exp ++ vars) with
      | (some t, te) =>
        match acc.1 with
        | some l => if l.order > t.order then (some t, te) else acc
        | none => (some t, te)
      | (none, _) => acc

theorem findF_succ_eq (fuel : Nat) (n : Node) (el : Str) (rest exp : List Str) :
    findF (fuel + 1) n (el :: rest) exp =
      n.edges.foldl (findStep fuel el rest exp)
        (match n.star with
         | some s => (some s, exp ++ [joinSlash (el :: rest)])
         | none => (none, [])) := rfl

theorem findStep_keep_of_none {fuel : Nat} {el : Str} {rest exp : List Str}
    {acc : Option Leaf × List Str} {p : Str × Edge}
    (hm : matchEdge p.2 el = none) : findStep fuel el rest exp acc p = acc := by
  simp only [findStep, hm]
  split <;> rfl

theorem findStep_prune {fuel : Nat} {el : Str} {rest exp : List Str}
    {acc : Option Leaf × List Str} {p : Str × Edge} {la : Leaf}
    (ha : acc.1 = some la) (h : la.order < p.2.minorder) :
    findStep fuel el rest exp acc p = acc := by
  simp only [findStep, ha]
  rw [if_pos (by simpa using h)]

theorem findStep_eq_of {fuel : Nat} {el : Str} {rest exp : List Str}
    {acc : Option Leaf × List Str} {p : Str × Edge} {vars : List Str}
    (hm : matchEdge p.2 el = some vars)
    (hnp : ∀ la, acc.1 = some la → ¬ la.order < p.2.minorder) :
    findStep fuel el rest exp acc p =
      match findF fuel p.2.node rest (exp ++ vars) with
      | (some t, te) =>
        match acc.1 with
        | some la => if la.order > t.order then (some t, te) else acc
        | none => (some t, te)
      | (none, _) => acc := by
  have hprune : (match acc.1 with
      | some l => decide (l.order < p.2.minorder)
      | none => false) = false := by
    cases ha : acc.1 with
    | some la => simpa using hnp la ha
    | none => rfl
  simp only [findStep, hprune, hm]
  rfl

/-- A fold step can only keep the accumulator or strictly improve it. -/
theorem findStep_mono {fuel : Nat} {el : Str} {rest exp : List Str}
    {acc : Option Leaf × List Str} {p : Str × Edge} {la : Leaf}
    (ha : acc.1 = some la) :
    ∃ lb, (findStep fuel el rest exp acc p).1 = some lb ∧ lb.order ≤ la.order := by
  by_cases hp : la.order < p.2.minorder
  · exact ⟨la, by rw [findStep_prune ha hp, ha], le_refl _⟩
  · cases hm : matchEdge p.2 el with
    | none => exact ⟨la, by rw [findStep_keep_of_none hm, ha], le_refl _⟩
    | some vars =>
      rw [findStep_eq_of hm (fun lb hb => by rw [ha] at hb; cases hb; exact hp)]
      rcases hf : findF fuel p.2.node rest (exp ++ vars) with ⟨tl, te⟩
      cases tl with
      | none => exact ⟨la, by simp [ha], le_refl _⟩
      | some t =>
        simp only [ha]
        by_cases ho : la.order > t.order
        · exact ⟨t, by rw [if_pos ho], Nat.le_of_lt ho⟩
        · exact ⟨la, by rw [if_neg ho, ha], le_refl _⟩

/-- A fold step's result comes from the accumulator or from the edge. -/
theorem findStep_sound {fuel : Nat} {el : Str} {rest exp : List Str}
    {acc : Option Leaf × List Str} {p : Str × Edge} {l : Leaf}
    (h : (findStep fuel el rest exp acc p).1 = some l) :
    acc.1 = some l ∨ ∃ vars te, matchEdge p.2 el = some vars ∧
      findF fuel p.2.node rest (exp ++ vars) = (some l, te) := by
  simp only [findStep] at h
  split at h
  · exact Or.inl h
  · split at h
    · exact Or.inl h
    · rename_i vars hm
      split at h
      · rename_i t te hf
        split at h
        · rename_i la ha
          split at h
          · rw [Option.some.injEq] at h
            subst h
            exact Or.inr ⟨vars, te, hm, hf⟩
          · exact Or.inl (ha ▸ h)
        · rw [Option.some.injEq] at h
          subst h
          exact Or.inr ⟨vars, te, hm, hf⟩
      · exact Or.inl h

/-- Soundness of the edge fold: any produced leaf comes from the initial
accumulator or from one of the folded edges. -/
theorem findFold_sound {fuel : Nat} {el : Str} {rest exp : List Str}
    {P : Leaf → Prop} :
    ∀ (es : List (Str × Edge)) (acc : Option Leaf × List Str),
      (∀ l, acc.1 = some l → P l) →
      (∀ p, p ∈ es → ∀ vars te l, matchEdge p.2 el = some vars →
        findF fuel p.2.node rest (exp ++ vars) = (some l, te) → P l) →
      ∀ l, (es.foldl (findStep fuel el rest exp) acc).1 = some l → P l := by
  intro es
  induction es with
  | nil => intro acc hacc hes l h; exact hacc l h
  | cons p es ih =>
    intro acc hacc hes l h
    rw [List.foldl_cons] at h
    refine ih (findStep fuel el rest exp acc p) ?_ ?_ l h
    · intro l0 h0
      rcases findStep_sound h0 with h1 | ⟨vars, te, hm, hf⟩
      · exact hacc l0 h1
      · exact hes p (List.mem_cons_self p es) vars te l0 hm hf
    · intro q hq vars te l0 hm hf
      exact hes q (List.mem_cons_of_mem p hq) vars te l0 hm hf

/-- Minimality of the edge fold: the fold result is at least as good as the
accumulator and as any leaf matched through one of the folded edges. -/
theorem findFold_min {fuel : Nat} {el : Str} {rest exp : List Str}
    (ihf : ∀ (m : Node) (exp2 : List Str), MinInv m →
      ∀ l, MatchLeaf m rest l →
        ∃ l2 ex2, findF fuel m rest exp2 = (some l2, ex2) ∧ l2.order ≤ l.order) :
    ∀ (es : List (Str × Edge)) (acc : Option Leaf × List Str),
      (∀ p, p ∈ es → (∀ l, LeafIn p.2.node l → p.2.minorder ≤ l.order) ∧ MinInv p.2.node) →
      (∀ la, acc.1 = some la →
        ∃ lb, (es.foldl (findStep fuel el rest exp) acc).1 = some lb ∧
          lb.order ≤ la.order) ∧
      (∀ p, p ∈ es → ∀ vars l, matchEdge p.2 el = some vars →
        MatchLeaf p.2.node rest l →
        ∃ lb, (es.foldl (findStep fuel el rest exp) acc).1 = some lb ∧
          lb.order ≤ l.order) := by
  intro es
  induction es with
  | nil =>
    intro acc hes
    refine ⟨fun la ha => ⟨la, ha, le_refl _⟩, fun p hp => absurd hp (by simp)⟩
  | cons p es ih =>
    intro acc hes
    have hes2 : ∀ q, q ∈ es →
        (∀ l, LeafIn q.2.node l → q.2.minorder ≤ l.order) ∧ MinInv q.2.node :=
      fun q hq => hes q (List.mem_cons_of_mem p hq)
    have hstep_bound : ∀ la, acc.1 = some la →
        ∃ lb, (findStep fuel el rest exp acc p).1 = some lb ∧ lb.order ≤ la.order :=
      fun la ha => findStep_mono ha
    constructor
    · intro la ha
      obtain ⟨lb, hb, hord⟩ := hstep_bound la ha
      obtain ⟨lc, hc, hord2⟩ := (ih (findStep fuel el rest exp acc p) hes2).1 lb hb
      exact ⟨lc, by rw [List.foldl_cons]; exact hc, le_trans hord2 hord⟩
    · intro q hq vars l hm hml
      rcases List.mem_cons.1 hq with rfl | hq2
      · -- the head edge matches l; the step already reaches order ≤ l.order
        have hstep : ∃ lb, (findStep fuel el rest exp acc q).1 = some lb ∧
            lb.order ≤ l.order := by
          rcases ha : acc.1 with _ | la
          · rw [findStep_eq_of hm (fun la h0 => by rw [ha] at h0; cases h0)]
            obtain ⟨l2, ex2, hf, hord⟩ :=
              ihf q.2.node (exp ++ vars) (hes q (List.mem_cons_self q es)).2 l hml
            rw [hf, ha]
            exact ⟨l2, rfl, hord⟩
          · by_cases hp : la.order < q.2.minorder
            · have hlb : q.2.minorder ≤ l.order :=
                (hes q (List.mem_cons_self q es)).1 l (matchLeaf_leafIn hml)
              exact ⟨la, by rw [findStep_prune ha hp, ha],
                le_trans (Nat.le_of_lt hp) hlb⟩
            · rw [findStep_eq_of hm (fun lb h0 => by
                rw [ha] at h0; cases h0; exact hp)]
              obtain ⟨l2, ex2, hf, hord⟩ :=
                ihf q.2.node (exp ++ vars) (hes q (List.mem_cons_self q es)).2 l hml
              rw [hf, ha]
              by_cases ho : la.order > l2.order
              · exact ⟨l2, by simp [ho], hord⟩
              · exact ⟨la, by simp [ho, ha], le_trans (Nat.le_of_not_lt ho) hord⟩
        obtain ⟨lb, hb, hord⟩ := hstep
        obtain ⟨lc, hc, hord2⟩ := (ih (findStep fuel el rest exp acc q) hes2).1 lb hb
        exact ⟨lc, by rw [List.foldl_cons]; exact hc, le_trans hord2 hord⟩
      · obtain ⟨lb, hb, hord⟩ :=
          (ih (findStep fuel el rest exp acc p) hes2).2 q hq2 vars l hm hml
        exact ⟨lb, by rw [List.foldl_cons]; exact hb, hord⟩

/-- Correctness of `find`: with the minorder lower-bound invariant, the
search returns a code-matching leaf of minimal insertion order. -/
theorem findF_correct (fuel : Nat) :
    ∀ {n : Node} {els exp : List Str}, els.length ≤ fuel → MinInv n →
      (∀ l ex, findF fuel n els exp = (some l, ex) → MatchLeaf n els l) ∧
      (∀ l, MatchLeaf n els l →
        ∃ l2 ex2, findF fuel n els exp = (some l2, ex2) ∧ l2.order ≤ l.order) := by
  induction fuel with
  | zero =>
    intro n els exp hlen hm
    cases els with
    | nil =>
      constructor
      · intro l ex h
        simp only [findF] at h
        rw [Prod.mk.injEq] at h
        exact MatchLeaf.leaf h.1
      · intro l hml
        cases hml with
        | leaf h0 => exact ⟨l, exp, by simp [findF, h0], le_refl _⟩
    | cons _ _ => simp at hlen
  | succ fuel ih =>
    intro n els exp hlen hm
    cases els with
    | nil =>
      constructor
      · intro l ex h
        simp only [findF] at h
        rw [Prod.mk.injEq] at h
        exact MatchLeaf.leaf h.1
      · intro l hml
        cases hml with
        | leaf h0 => exact ⟨l, exp, by simp [findF, h0], le_refl _⟩
    | cons el rest =>
      have hlen2 : rest.length ≤ fuel := by simpa using hlen
      have ihf : ∀ (m : Node) (exp2 : List Str), MinInv m →
          ∀ l, MatchLeaf m rest l →
            ∃ l2 ex2, findF fuel m rest exp2 = (some l2, ex2) ∧ l2.order ≤ l.order :=
        fun m exp2 hm2 l hml => (ih hlen2 hm2).2 l hml
      have hes : ∀ p, p ∈ n.edges →
          (∀ l, LeafIn p.2.node l → p.2.minorder ≤ l.order) ∧ MinInv p.2.node := by
        intro p hp
        exact minInv_sub hm (k := p.1) (by simpa using hp)
      constructor
      · intro l ex h
        rw [findF_succ_eq] at h
        have h1 := congrArg Prod.fst h
        refine findFold_sound n.edges _ ?_ ?_ l h1
        · intro l0 h0
          cases hst : n.star with
          | some s =>
            rw [hst] at h0
            simp only [Option.some.injEq] at h0
            subst h0
            exact MatchLeaf.star hst
          | none => rw [hst] at h0; exact absurd h0 (by simp)
        · intro p hp vars te l0 hme hf
          have hml := (ih hlen2 (hes p hp).2).1 l0 te hf
          exact MatchLeaf.edge (k := p.1) (by simpa using hp) hme hml
      · intro l hml
        rw [findF_succ_eq]
        cases hml with
        | star h0 =>
          have hinit : (match n.star with
              | some s => (some s, exp ++ [joinSlash (el :: rest)])
              | none => ((none : Option Leaf), ([] : List Str))).1 = some l := by
            rw [h0]
          obtain ⟨lb, hb, hord⟩ :=
            (findFold_min ihf n.edges _ hes).1 l hinit
          exact ⟨lb, _, Prod.ext hb rfl, hord⟩
        | edge hmem hme hml2 =>
          rename_i k e vars
          obtain ⟨lb, hb, hord⟩ :=
            (findFold_min ihf n.edges _ hes).2 (k, e) hmem vars l hme hml2
          exact ⟨lb, _, Prod.ext hb rfl, hord⟩

theorem ordBound_congr {n m : Node} {order : Nat} (he : n.edges = m.edges)
    (h : OrdBound n order) : OrdBound m order :=
  fun e hin => h e (edgeIn_congr he.symm hin)

theorem ordBound_sub {n : Node} {order : Nat} {k : Str} {e : Edge}
    (h : OrdBound n order) (hmem : (k, e) ∈ n.edges) : OrdBound e.node order :=
  fun e2 hin => h e2 (EdgeIn.deeper hmem hin)

/-- `add` preserves the minorder lower-bound invariant, keeps all minorders
bounded by the current order, creates leaves only with the current order,
and never touches the counter of the node it is invoked on. -/
theorem add_minInv {els : List Str} :
    ∀ {n : Node} {order : Nat} {wilds : List Wildcard} {chain : List EdgeFrame}
      {b : Bool} {v : Val} {n2 : Node} {r : Except AddErr Leaf},
      MinInv n → OrdBound n order → add n order els wilds chain b v = some (n2, r) →
      MinInv n2 ∧ OrdBound n2 order ∧
      (∀ l, LeafIn n2 l → LeafIn n l ∨ l.order = order) ∧ n2.leafs = n.leafs := by
  induction els with
  | nil =>
    intro n order wilds chain b v n2 r hm ho h
    rcases add_cases h with ⟨_, _, rfl, _⟩ | ⟨_, hleaf, rfl, _⟩ | ⟨_, _, habs, _⟩ |
      ⟨_, _, habs, _⟩ | ⟨_, _, habs, _⟩
    · exact ⟨hm, ho, fun l hl => Or.inl hl, rfl⟩
    · refine ⟨minInv_congr (by simp) hm, ordBound_congr (by simp) ho, ?_, by simp⟩
      intro l hl
      cases hl with
      | leaf h0 =>
        simp only [Node.leaf_mk, Option.some.injEq] at h0
        subst h0
        exact Or.inr rfl
      | star h0 => exact Or.inl (LeafIn.star (by simpa using h0))
      | edge hmem hdeep => exact Or.inl (LeafIn.edge (by simpa using hmem) hdeep)
    · exact absurd habs (by simp)
    · exact absurd habs (by simp)
    · exact absurd habs (by simp)
  | cons el rest ih =>
    intro n order wilds chain b v n2 r hm ho h
    rcases add_cases h with ⟨habs, _⟩ | ⟨habs, _⟩ | ⟨name, rest2, heq, _, rfl, _⟩ |
      ⟨name, rest2, heq, hstar, rfl, _⟩ | ⟨el2, rest2, heq, hns, varList, hdec, hbody⟩
    · exact absurd habs (by simp)
    · exact absurd habs (by simp)
    · exact ⟨hm, ho, fun l hl => Or.inl hl, rfl⟩
    · refine ⟨minInv_congr (by simp) hm, ordBound_congr (by simp) ho, ?_, by simp⟩
      intro l hl
      cases hl with
      | leaf h0 => exact Or.inl (LeafIn.leaf (by simpa using h0))
      | star h0 =>
        simp only [Node.star_mk, Option.some.injEq] at h0
        subst h0
        exact Or.inr rfl
      | edge hmem hdeep => exact Or.inl (LeafIn.edge (by simpa using hmem) hdeep)
    · injection heq with he1 he2
      subst he1
      subst he2
      rcases hbody with ⟨e0, child, hlook, hrec, rfl⟩ | ⟨child, hlook, hrec, rfl⟩
      · have hmem0 := edgesLookup_mem hlook
        obtain ⟨hchild_m, hchild_o, hchild_l, hchild_c⟩ :=
          ih (minInv_sub hm hmem0).2 (ordBound_sub ho hmem0) hrec
        have hbound : ∀ l, LeafIn child l → (e0.setNode child).minorder ≤ l.order := by
          intro l hl
          rcases hchild_l l hl with h1 | h1
          · simpa using (minInv_sub hm hmem0).1 l h1
          · rw [h1]
            simpa using ho e0 (EdgeIn.here hmem0)
        refine ⟨?_, ?_, ?_, by simp⟩
        · refine MinInv.mk ?_ ?_
          · intro k e hmem l hl
            rcases edgesUpdate_mem (by simpa using hmem) with h1 | ⟨rfl, rfl⟩
            · exact (minInv_sub hm h1).1 l hl
            · exact hbound l (by simpa using hl)
          · intro k e hmem
            rcases edgesUpdate_mem (by simpa using hmem) with h1 | ⟨rfl, rfl⟩
            · exact (minInv_sub hm h1).2
            · exact minInv_congr (by simp) hchild_m
        · intro e hin
          cases hin with
          | here hmem =>
            rcases edgesUpdate_mem (by simpa using hmem) with h1 | ⟨rfl, rfl⟩
            · exact ho _ (EdgeIn.here h1)
            · simpa using ho e0 (EdgeIn.here hmem0)
          | deeper hmem hdeep =>
            rcases edgesUpdate_mem (by simpa using hmem) with h1 | ⟨rfl, rfl⟩
            · exact ho _ (EdgeIn.deeper h1 hdeep)
            · exact hchild_o _ (by simpa using hdeep)
        · intro l hl
          cases hl with
          | leaf h0 => exact Or.inl (LeafIn.leaf (by simpa using h0))
          | star h0 => exact Or.inl (LeafIn.star (by simpa using h0))
          | edge hmem hdeep =>
            rcases edgesUpdate_mem (by simpa using hmem) with h1 | ⟨rfl, rfl⟩
            · exact Or.inl (LeafIn.edge h1 hdeep)
            · rcases hchild_l l (by simpa using hdeep) with h1 | h1
              · exact Or.inl (LeafIn.edge hmem0 h1)
              · exact Or.inr h1
      · obtain ⟨hchild_m, hchild_o, hchild_l, hchild_c⟩ :=
          ih minInv_new (fun e he => absurd he edgeIn_new) hrec
        have hchild_l2 : ∀ l, LeafIn child l → l.order = order := by
          intro l hl
          rcases hchild_l l hl with h1 | h1
          · cases h1 with
            | leaf h0 => simp [Node.new] at h0
            | star h0 => simp [Node.new] at h0
            | edge hmem _ => simp [Node.new] at hmem
          · exact h1
        refine ⟨?_, ?_, ?_, by simp⟩
        · refine MinInv.mk ?_ ?_
          · intro k e hmem l hl
            simp only [Node.edges_mk] at hmem
            rcases List.mem_append.1 hmem with h1 | h1
            · exact (minInv_sub hm h1).1 l hl
            · simp only [List.mem_singleton, Prod.mk.injEq] at h1
              obtain ⟨rfl, rfl⟩ := h1
              simp only [Edge.minorder_mk]
              rw [hchild_l2 l (by simpa using hl)]
          · intro k e hmem
            simp only [Node.edges_mk] at hmem
            rcases List.mem_append.1 hmem with h1 | h1
            · exact (minInv_sub hm h1).2
            · simp only [List.mem_singleton, Prod.mk.injEq] at h1
              obtain ⟨rfl, rfl⟩ := h1
              exact minInv_congr (by simp) hchild_m
        · intro e hin
          cases hin with
          | here hmem =>
            simp only [Node.edges_mk] at hmem
            rcases List.mem_append.1 hmem with h1 | h1
            · exact ho _ (EdgeIn.here h1)
            · simp only [List.mem_singleton, Prod.mk.injEq] at h1
              obtain ⟨rfl, rfl⟩ := h1
              simp
          | deeper hmem hdeep =>
            simp only [Node.edges_mk] at hmem
            rcases List.mem_append.1 hmem with h1 | h1
            · exact ho _ (EdgeIn.deeper h1 hdeep)
            · simp only [List.mem_singleton, Prod.mk.injEq] at h1
              obtain ⟨rfl, rfl⟩ := h1
              exact hchild_o _ (by simpa using hdeep)
        · intro l hl
          cases hl with
          | leaf h0 => exact Or.inl (LeafIn.leaf (by simpa using h0))
          | star h0 => exact Or.inl (LeafIn.star (by simpa using h0))
          | edge hmem hdeep =>
            simp only [Node.edges_mk] at hmem
            rcases List.mem_append.1 hmem with h1 | h1
            · exact Or.inl (LeafIn.edge h1 hdeep)
            · simp only [List.mem_singleton, Prod.mk.injEq] at h1
              obtain ⟨rfl, rfl⟩ := h1
              exact Or.inr (hchild_l2 l (by simpa using hdeep))

/-- Every tree built by root `Add` calls satisfies the minorder lower-bound
invariant, with all minorders bounded by the root counter. -/
theorem built_minInv {t : Node} (hb : Built t) : MinInv t ∧ OrdBound t t.leafs := by
  induction hb with
  | base => exact ⟨minInv_new, fun e he => absurd he edgeIn_new⟩
  | step hb hadd ih =>
    rename_i t t2 key v r
    cases key with
    | nil => exact absurd hadd (by simp [Add])
    | cons c k =>
      by_cases hc : c = '/'
      · subst hc
        simp only [Add, if_neg (by simp : ¬('/' ≠ '/'))] at hadd
        have hm2 : MinInv (Node.mk t.edges t.leaf t.star (t.leafs + 1)) :=
          minInv_congr (by simp) ih.1
        have ho2 : OrdBound (Node.mk t.edges t.leaf t.star (t.leafs + 1)) (t.leafs + 1) :=
          fun e he => Nat.le_succ_of_le (ih.2 e (edgeIn_congr (by simp) he))
        obtain ⟨hm3, ho3, _, hc3⟩ := add_minInv hm2 ho2 hadd
        refine ⟨hm3, ?_⟩
        rw [hc3]
        simpa using ho3
      · rw [Add.eq_def] at hadd
        simp only [if_pos hc] at hadd
        simp only [Option.some.injEq, Prod.mk.injEq] at hadd
        obtain ⟨rfl, _⟩ := hadd
        exact ih

/-- C1: on any tree built by root `Add` calls, whenever `Find` returns a
leaf, that leaf is a code-matching candidate for the path and has the
smallest insertion order among all candidates (`MatchLeaf` is the matching
relation of the search without pruning: literal edges, padded wildcard
edges and star leaves alike). -/
theorem find_min_order (t : Node) (key : Str) (l : Leaf) (ex : List Str)
    (hb : Built t) (h : Find t key = (some l, ex)) :
    MatchLeaf t (splitPath key).1 l ∧
    ∀ l2, MatchLeaf t (splitPath key).1 l2 → l.order ≤ l2.order := by
  cases key with
  | nil => exact absurd h (by simp [Find])
  | cons c k =>
    by_cases hc : c = '/'
    · subst hc
      simp only [Find, if_neg (by simp : ¬('/' ≠ '/')), find] at h
      have hcorrect := @findF_correct (splitPath ('/' :: k)).1.length t
        (splitPath ('/' :: k)).1 [] (le_refl _) (built_minInv hb).1
      refine ⟨hcorrect.1 l ex h, ?_⟩
      intro l2 hml2
      obtain ⟨l3, ex3, hf3, hord3⟩ := hcorrect.2 l2 hml2
      rw [h] at hf3
      rw [Prod.mk.injEq] at hf3
      obtain ⟨hl3, _⟩ := hf3
      cases hl3
      exact hord3
    · rw [Find.eq_def] at h
      simp only [if_pos hc] at h
      exact absurd h (by simp)

def c1t1 : Node := addOk Node.new (str "/:a/:b") 1

def c1t : Node := addOk c1t1 (str "/not/found") 2

def c1l : Leaf := (addLeaf Node.new (str "/:a/:b") 1).getD ⟨0, [], 0, false, []⟩

def c1l2 : Leaf := (addLeaf c1t1 (str "/not/found") 2).getD ⟨0, [], 0, false, []⟩

/-- Witness for C1: with `/:a/:b` registered first and `/not/found` second,
`Find("/not/found")` returns the `/:a/:b` leaf (order 1) with expansions
`["not", "found"]`, and that leaf is minimal among all matching leaves. -/
theorem find_min_order_witness :
    Built c1t ∧
    Find c1t (str "/not/found") = (some c1l, [str "not", str "found"]) ∧
    c1l.order = 1 ∧ c1l2.order = 2 ∧
    MatchLeaf c1t (splitPath (str "/not/found")).1 c1l ∧
    (∀ l2, MatchLeaf c1t (splitPath (str "/not/found")).1 l2 → c1l.order ≤ l2.order) := by
  have h1 : Add Node.new (str "/:a/:b") 1 = some (c1t1, .ok c1l) := rfl
  have h2 : Add c1t1 (str "/not/found") 2 = some (c1t, .ok c1l2) := rfl
  have hb : Built c1t := Built.step (Built.step Built.base h1) h2
  have hf : Find c1t (str "/not/found") = (some c1l, [str "not", str "found"]) := rfl
  have h := find_min_order c1t (str "/not/found") c1l [str "not", str "found"] hb hf
  exact ⟨hb, hf, rfl, rfl, h.1, h.2⟩

/-! ## C2: literal patterns and `Find` -/

/-- The padding/wildcard structure an edge key determines: every edge is
created by `add` with exactly this data computed from its representation
string. -/
def edgeShapeOf (k : Str) : Option (List (List Str) × List Wildcard × Bool) :=
  (decodeAll (unzipAlt (splitInput k)).2).map
    (fun vl => ((unzipAlt (splitInput k)).1.map splitPad, vl,
      decide (((unzipAlt (splitInput k)).1.map splitPad).length = vl.length)))

/-- Every edge's structure is the one determined by its key. -/
inductive ShapeInv : Node → Prop where
  | mk {n : Node} :
      (∀ k e, (k, e) ∈ n.edges →
        edgeShapeOf k = some (e.padding, e.wildcards, e.wildend)) →
      (∀ k e, (k, e) ∈ n.edges → ShapeInv e.node) → ShapeInv n

/-- Edge keys are unique at every node. -/
inductive KeysOk : Node → Prop where
  | mk {n : Node} : List.Nodup (n.edges.map Prod.fst) →
      (∀ k e, (k, e) ∈ n.edges → KeysOk e.node) → KeysOk n

theorem shapeInv_congr {n m : Node} (he : n.edges = m.edges) (h : ShapeInv n) :
    ShapeInv m := by
  cases h with
  | mk h0 h1 =>
    exact ShapeInv.mk (fun k e hmem => h0 k e (he ▸ hmem))
      (fun k e hmem => h1 k e (he ▸ hmem))

theorem keysOk_congr {n m : Node} (he : n.edges = m.edges) (h : KeysOk n) : KeysOk m := by
  cases h with
  | mk h0 h1 =>
    exact KeysOk.mk (he ▸ h0) (fun k e hmem => h1 k e (he ▸ hmem))

theorem shapeInv_new : ShapeInv Node.new :=
  ShapeInv.mk (fun k e hmem => absurd hmem (by simp [Node.new]))
    (fun k e hmem => absurd hmem (by simp [Node.new]))

theorem keysOk_new : KeysOk Node.new :=
  KeysOk.mk (by simp [Node.new]) (fun k e hmem => absurd hmem (by simp [Node.new]))

theorem edgesUpdate_keys (l : List (Str × Edge)) (k : Str) (e : Edge) :
    (edgesUpdate l k e).map Prod.fst = l.map Prod.fst := by
  induction l with
  | nil => simp [edgesUpdate]
  | cons p rest ih =>
    obtain ⟨pk, pe⟩ := p
    by_cases h1 : pk = k
    · simp [edgesUpdate, h1]
    · simp [edgesUpdate, h1, ih]

theorem edgesLookup_none_not_mem {l : List (Str × Edge)} {k : Str}
    (h : edgesLookup l k = none) : k ∉ l.map Prod.fst := by
  induction l with
  | nil => simp
  | cons p rest ih =>
    obtain ⟨pk, pe⟩ := p
    by_cases h1 : pk = k
    · simp [edgesLookup, h1] at h
    · simp only [edgesLookup, if_neg h1] at h
      simp only [List.map_cons, List.mem_cons]
      rintro (h2 | h2)
      · exact h1 h2.symm
      · exact ih h h2

theorem edgesLookup_of_mem_nodup {l : List (Str × Edge)} {k : Str} {e : Edge}
    (hnd : List.Nodup (l.map Prod.fst)) (hmem : (k, e) ∈ l) :
    edgesLookup l k = some e := by
  induction l with
  | nil => simp at hmem
  | cons p rest ih =>
    obtain ⟨pk, pe⟩ := p
    simp only [List.map_cons, List.nodup_cons] at hnd
    rcases List.mem_cons.1 hmem with h1 | h1
    · obtain ⟨rfl, rfl⟩ : pk = k ∧ pe = e :=
        ⟨(congrArg Prod.fst h1).symm, (congrArg Prod.snd h1).symm⟩
      simp [edgesLookup]
    · have hk : pk ≠ k := by
        rintro rfl
        exact hnd.1 (List.mem_map.2 ⟨(pk, e), h1, rfl⟩)
      simp only [edgesLookup, if_neg hk]
      exact ih hnd.2 h1

theorem edgesUpdate_mem_other {l : List (Str × Edge)} {k k2 : Str} {e2 enew : Edge}
    (hmem : (k2, e2) ∈ l) (hne : k2 ≠ k) : (k2, e2) ∈ edgesUpdate l k enew := by
  induction l with
  | nil => simp at hmem
  | cons p rest ih =>
    obtain ⟨pk, pe⟩ := p
    rcases List.mem_cons.1 hmem with h1 | h1
    · obtain ⟨rfl, rfl⟩ : pk = k2 ∧ pe = e2 :=
        ⟨(congrArg Prod.fst h1).symm, (congrArg Prod.snd h1).symm⟩
      simp only [edgesUpdate, if_neg hne]
      exact List.mem_cons_self _ _
    · by_cases hk : pk = k
      · simp only [edgesUpdate, if_pos hk]
        exact List.mem_cons_of_mem _ h1
      · simp only [edgesUpdate, if_neg hk]
        exact List.mem_cons_of_mem _ (ih h1)

theorem add_shape {els : List Str} :
    ∀ {n : Node} {order : Nat} {wilds : List Wildcard} {chain : List EdgeFrame}
      {b : Bool} {v : Val} {n2 : Node} {r : Except AddErr Leaf},
      ShapeInv n → add n order els wilds chain b v = some (n2, r) → ShapeInv n2 := by
  induction els with
  | nil =>
    intro n order wilds chain b v n2 r hs h
    rcases add_cases h with ⟨_, _, rfl, _⟩ | ⟨_, _, rfl, _⟩ | ⟨_, _, habs, _⟩ |
      ⟨_, _, habs, _⟩ | ⟨_, _, habs, _⟩
    · exact hs
    · exact shapeInv_congr (by simp) hs
    · exact absurd habs (by simp)
    · exact absurd habs (by simp)
    · exact absurd habs (by simp)
  | cons el rest ih =>
    intro n order wilds chain b v n2 r hs h
    rcases add_cases h with ⟨habs, _⟩ | ⟨habs, _⟩ | ⟨name, rest2, heq, _, rfl, _⟩ |
      ⟨name, rest2, heq, _, rfl, _⟩ | ⟨el2, rest2, heq, hns, varList, hdec, hbody⟩
    · exact absurd habs (by simp)
    · exact absurd habs (by simp)
    · exact hs
    · exact shapeInv_congr (by simp) hs
    · injection heq with he1 he2
      subst he1
      subst he2
      obtain ⟨hsh, hsub⟩ : (∀ k e, (k, e) ∈ n.edges →
          edgeShapeOf k = some (e.padding, e.wildcards, e.wildend)) ∧
          (∀ k e, (k, e) ∈ n.edges → ShapeInv e.node) := by
        cases hs with
        | mk h0 h1 => exact ⟨h0, h1⟩
      rcases hbody with ⟨e0, child, hlook, hrec, rfl⟩ | ⟨child, hlook, hrec, rfl⟩
      · have hmem0 := edgesLookup_mem hlook
        have hchild := ih (hsub _ _ hmem0) hrec
        refine ShapeInv.mk ?_ ?_
        · intro k e hmem
          simp only [Node.edges_mk] at hmem
          rcases edgesUpdate_mem hmem with h1 | ⟨rfl, rfl⟩
          · exact hsh k e h1
          · simpa using hsh _ e0 hmem0
        · intro k e hmem
          simp only [Node.edges_mk] at hmem
          rcases edgesUpdate_mem hmem with h1 | ⟨rfl, rfl⟩
          · exact hsub k e h1
          · exact shapeInv_congr (by simp) hchild
      · have hchild := ih shapeInv_new hrec
        refine ShapeInv.mk ?_ ?_
        · intro k e hmem
          simp only [Node.edges_mk] at hmem
          rcases List.mem_append.1 hmem with h1 | h1
          · exact hsh k e h1
          · simp only [List.mem_singleton, Prod.mk.injEq] at h1
            obtain ⟨rfl, rfl⟩ := h1
            simp only [edgeShapeOf, hdec, Option.map_some]
            simp
        · intro k e hmem
          simp only [Node.edges_mk] at hmem
          rcases List.mem_append.1 hmem with h1 | h1
          · exact hsub k e h1
          · simp only [List.mem_singleton, Prod.mk.injEq] at h1
            obtain ⟨rfl, rfl⟩ := h1
            exact shapeInv_congr (by simp) hchild

theorem add_keys {els : List Str} :
    ∀ {n : Node} {order : Nat} {wilds : List Wildcard} {chain : List EdgeFrame}
      {b : Bool} {v : Val} {n2 : Node} {r : Except AddErr Leaf},
      KeysOk n → add n order els wilds chain b v = some (n2, r) → KeysOk n2 := by
  induction els with
  | nil =>
    intro n order wilds chain b v n2 r hs h
    rcases add_cases h with ⟨_, _, rfl, _⟩ | ⟨_, _, rfl, _⟩ | ⟨_, _, habs, _⟩ |
      ⟨_, _, habs, _⟩ | ⟨_, _, habs, _⟩
    · exact hs
    · exact keysOk_congr (by simp) hs
    · exact absurd habs (by simp)
    · exact absurd habs (by simp)
    · exact absurd habs (by simp)
  | cons el rest ih =>
    intro n order wilds chain b v n2 r hs h
    rcases add_cases h with ⟨habs, _⟩ | ⟨habs, _⟩ | ⟨name, rest2, heq, _, rfl, _⟩ |
      ⟨name, rest2, heq, _, rfl, _⟩ | ⟨el2, rest2, heq, hns, varList, hdec, hbody⟩
    · exact absurd habs (by simp)
    · exact absurd habs (by simp)
    · exact hs
    · exact keysOk_congr (by simp) hs
    · injection heq with he1 he2
      subst he1
      subst he2
      obtain ⟨hnd, hsub⟩ : List.Nodup (n.edges.map Prod.fst) ∧
          (∀ k e, (k, e) ∈ n.edges → KeysOk e.node) := by
        cases hs with
        | mk h0 h1 => exact ⟨h0, h1⟩
      rcases hbody with ⟨e0, child, hlook, hrec, rfl⟩ | ⟨child, hlook, hrec, rfl⟩
      · have hmem0 := edgesLookup_mem hlook
        have hchild := ih (hsub _ _ hmem0) hrec
        refine KeysOk.mk ?_ ?_
        · simpa [edgesUpdate_keys] using hnd
        · intro k e hmem
          simp only [Node.edges_mk] at hmem
          rcases edgesUpdate_mem hmem with h1 | ⟨rfl, rfl⟩
          · exact hsub k e h1
          · exact keysOk_congr (by simp) hchild
      · have hchild := ih keysOk_new hrec
        refine KeysOk.mk ?_ ?_
        · simp only [Node.edges_mk, List.map_append, List.map_cons, List.map_nil]
          rw [List.nodup_append]
          refine ⟨hnd, List.nodup_singleton _, fun a ha hb => ?_⟩
          simp only [List.mem_singleton] at hb
          subst hb
          exact (edgesLookup_none_not_mem hlook) ha
        · intro k e hmem
          simp only [Node.edges_mk] at hmem
          rcases List.mem_append.1 hmem with h1 | h1
          · exact hsub k e h1
          · simp only [List.mem_singleton, Prod.mk.injEq] at h1
            obtain ⟨rfl, rfl⟩ := h1
            exact keysOk_congr (by simp) hchild

theorem built_shape {t : Node} (hb : Built t) : ShapeInv t := by
  induction hb with
  | base => exact shapeInv_new
  | step hb hadd ih =>
    rename_i t t2 key v r
    cases key with
    | nil => exact absurd hadd (by simp [Add])
    | cons c k =>
      by_cases hc : c = '/'
      · subst hc
        simp only [Add, if_neg (by simp : ¬('/' ≠ '/'))] at hadd
        exact add_shape (shapeInv_congr (by simp) ih) hadd
      · rw [Add.eq_def] at hadd
        simp only [if_pos hc] at hadd
        simp only [Option.some.injEq, Prod.mk.injEq] at hadd
        obtain ⟨rfl, _⟩ := hadd
        exact ih

theorem built_keys {t : Node} (hb : Built t) : KeysOk t := by
  induction hb with
  | base => exact keysOk_new
  | step hb hadd ih =>
    rename_i t t2 key v r
    cases key with
    | nil => exact absurd hadd (by simp [Add])
    | cons c k =>
      by_cases hc : c = '/'
      · subst hc
        simp only [Add, if_neg (by simp : ¬('/' ≠ '/'))] at hadd
        exact add_keys (keysOk_congr (by simp) ih) hadd
      · rw [Add.eq_def] at hadd
        simp only [if_pos hc] at hadd
        simp only [Option.some.injEq, Prod.mk.injEq] at hadd
        obtain ⟨rfl, _⟩ := hadd
        exact ih

theorem strIndex_zero_of_pre {s p : Str} (h : p <+: s) : strIndex s p = some 0 := by
  rw [strIndex, strIndexAux.eq_def]
  simp [List.isPrefixOf_iff_prefix.2 h]

theorem splitChar_head (c : Char) (s : Str) :
    ∃ g gs, splitChar c s = g :: gs ∧ g <+: s := by
  induction s with
  | nil => exact ⟨[], [], rfl, List.nil_prefix⟩
  | cons ch rest ih =>
    obtain ⟨g, gs, heq, hpre⟩ := ih
    by_cases hc : ch = c
    · exact ⟨[], g :: gs, by simp [splitChar, heq, hc], List.nil_prefix⟩
    · exact ⟨ch :: g, gs, by simp [splitChar, heq, hc], List.cons_prefix_cons.2 ⟨rfl, hpre⟩⟩

theorem splitChar_chars {c : Char} {s : Str} :
    ∀ g ∈ splitChar c s, ∀ x ∈ g, x ∈ s := by
  induction s with
  | nil =>
    intro g hg x hx
    simp [splitChar] at hg
    subst hg
    simp at hx
  | cons ch rest ih =>
    intro g hg x hx
    rcases hsp : splitChar c rest with _ | ⟨g0, gs0⟩
    · simp [splitChar, hsp] at hg
      subst hg
      simp at hx
    · simp only [splitChar, hsp] at hg
      by_cases hc : ch = c
      · rw [if_pos hc] at hg
        rcases List.mem_cons.1 hg with rfl | hg2
        · simp at hx
        · exact List.mem_cons_of_mem _ (ih g (hsp ▸ hg2) x hx)
      · rw [if_neg hc] at hg
        rcases List.mem_cons.1 hg with rfl | hg2
        · rcases List.mem_cons.1 hx with rfl | hx2
          · exact List.mem_cons_self _ _
          · exact List.mem_cons_of_mem _ (ih g0 (hsp ▸ List.mem_cons_self g0 gs0) x hx2)
        · exact List.mem_cons_of_mem _
            (ih g (hsp ▸ List.mem_cons_of_mem g0 hg2) x hx)

theorem splitInputAux_no_colon {s : Str} (h : ':' ∉ s) :
    ∀ cur, splitInputAux s false cur = [cur.reverse ++ s] := by
  induction s with
  | nil => intro cur; simp [splitInputAux]
  | cons c rest ih =>
    intro cur
    have hc : c ≠ ':' := fun hc => h (hc ▸ List.mem_cons_self c rest)
    have hrest : ':' ∉ rest := fun h2 => h (List.mem_cons_of_mem c h2)
    simp only [splitInputAux]
    rw [if_neg (by simp [hc])]
    rw [ih hrest (c :: cur)]
    simp

theorem splitInput_no_colon {s : Str} (h : ':' ∉ s) : splitInput s = [s] := by
  rw [splitInput, splitInputAux_no_colon h]
  simp

theorem stripSemi_chars {el : Str} {x : Char} (h : x ∈ stripSemi el) : x ∈ el := by
  rw [stripSemi] at h
  split at h
  · exact List.dropLast_subset _ h
  · exact h

theorem stripSemi_pre (el : Str) : stripSemi el <+: el := by
  rw [stripSemi]
  split
  · exact List.dropLast_prefix _
  · exact List.prefix_refl _

theorem matchEdge_lit {e : Edge} {el : Str}
    (hpad : e.padding = [splitPad (stripSemi el)]) (hw : e.wildcards = [])
    (hwe : e.wildend = false) : matchEdge e el = some [] := by
  obtain ⟨p1, more, hsp, hpre⟩ := splitChar_head '|' (stripSemi el)
  have hpre2 : p1 <+: el := hpre.trans (stripSemi_pre el)
  rw [matchEdge, hpad, hw, hwe]
  simp only [splitPad, hsp]
  rw [matchGroups, matchTryAlts, strIndex_zero_of_pre hpre2]
  simp [matchGroups]

theorem unzip_single {el2 : Str} (h : ':' ∉ el2) :
    unzipAlt (splitInput el2) = ([el2], []) := by
  rw [splitInput_no_colon h]
  rfl

theorem edgeShapeOf_no_colon {k : Str} (h : ':' ∉ k) :
    edgeShapeOf k = some ([splitPad k], [], false) := by
  rw [edgeShapeOf, unzip_single h]
  rfl

/-- A successful `add` of a wildcard-free segment list leaves a leaf that
the matcher can reach on those very segments (each literal edge matches its
own source text, whose stored key is a prefix of it). -/
theorem add_self_match {els : List Str} :
    ∀ {n : Node} {order : Nat} {wilds : List Wildcard} {chain : List EdgeFrame}
      {b : Bool} {v : Val} {n2 : Node} {l : Leaf},
      ShapeInv n →
      (∀ el ∈ els, ':' ∉ el ∧ el.head? ≠ some '*') →
      add n order els wilds chain b v = some (n2, .ok l) →
      MatchLeaf n2 els l := by
  induction els with
  | nil =>
    intro n order wilds chain b v n2 l hs hseg h
    rcases add_cases h with ⟨_, _, _, habs⟩ | ⟨_, _, rfl, hr⟩ | ⟨_, _, habs, _⟩ |
      ⟨_, _, habs, _⟩ | ⟨_, _, habs, _⟩
    · exact absurd habs (by simp)
    · injection hr with hr2
      exact MatchLeaf.leaf (by simp [hr2])
    · exact absurd habs (by simp)
    · exact absurd habs (by simp)
    · exact absurd habs (by simp)
  | cons el rest ih =>
    intro n order wilds chain b v n2 l hs hseg h
    have hescolon : ':' ∉ el := (hseg el (List.mem_cons_self el rest)).1
    have heshead : el.head? ≠ some '*' := (hseg el (List.mem_cons_self el rest)).2
    have hsegrest : ∀ e2 ∈ rest, ':' ∉ e2 ∧ e2.head? ≠ some '*' :=
      fun e2 he2 => hseg e2 (List.mem_cons_of_mem el he2)
    have hc2 : ':' ∉ stripSemi el := fun hx => hescolon (stripSemi_chars hx)
    rcases add_cases h with ⟨habs, _⟩ | ⟨habs, _⟩ | ⟨name, rest2, heq, _, _, habs⟩ |
      ⟨name, rest2, heq, _, rfl, hr⟩ | ⟨el2, rest2, heq, hns, varList, hdec, hbody⟩
    · exact absurd habs (by simp)
    · exact absurd habs (by simp)
    · exact absurd habs (by simp)
    · injection heq with he1 he2
      exact absurd (by rw [he1]; rfl : el.head? = some '*') heshead
    · injection heq with he1 he2
      subst he1
      subst he2
      obtain ⟨hsh, hsub⟩ : (∀ k e, (k, e) ∈ n.edges →
          edgeShapeOf k = some (e.padding, e.wildcards, e.wildend)) ∧
          (∀ k e, (k, e) ∈ n.edges → ShapeInv e.node) := by
        cases hs with
        | mk h0 h1 => exact ⟨h0, h1⟩
      have hvl : varList = [] := by
        rw [unzip_single hc2] at hdec
        simp [decodeAll] at hdec
        exact hdec
      subst hvl
      rcases hbody with ⟨e0, child, hlook, hrec, rfl⟩ | ⟨child, hlook, hrec, rfl⟩
      · have hmem0 := edgesLookup_mem hlook
        have hshape := hsh _ _ hmem0
        rw [edgeShapeOf_no_colon hc2] at hshape
        rw [Option.some.injEq, Prod.mk.injEq, Prod.mk.injEq] at hshape
        have hml := ih (hsub _ _ hmem0) hsegrest hrec
        have hmatch : matchEdge (e0.setNode child) el = some [] :=
          matchEdge_lit (by simpa using hshape.1.symm)
            (by simpa using hshape.2.1.symm) (by simpa using hshape.2.2.symm)
        have hmem2 := @edgesUpdate_mem_self n.edges (stripSemi el) e0
          (e0.setNode child) hlook
        exact MatchLeaf.edge (k := stripSemi el) (by simpa using hmem2) hmatch
          (by simpa using hml)
      · have hml := ih shapeInv_new hsegrest hrec
        have hpads : (unzipAlt (splitInput (stripSemi el))).1.map splitPad =
            [splitPad (stripSemi el)] := by
          rw [unzip_single hc2]
          rfl
        have hmatch : matchEdge (Edge.mk child
            ((unzipAlt (splitInput (stripSemi el))).1.map splitPad) []
            (decide (((unzipAlt (splitInput (stripSemi el))).1.map splitPad).length
              = ([] : List Wildcard).length)) order) el = some [] :=
          matchEdge_lit (by simp [hpads]) (by simp) (by simp [hpads])
        exact MatchLeaf.edge (k := stripSemi el)
          (by
            simp only [Node.edges_mk]
            exact List.mem_append.2 (Or.inr (List.mem_singleton.2 rfl)))
          hmatch (by simpa using hml)

theorem matchEdge_setNode (e : Edge) (m : Node) (el : Str) :
    matchEdge (e.setNode m) el = matchEdge e el := by
  cases e
  rfl

/-- `add` only grows a tree: every previously matching leaf still matches. -/
theorem add_matchLeaf_mono {aels : List Str} :
    ∀ {n : Node} {order : Nat} {wilds : List Wildcard} {chain : List EdgeFrame}
      {b : Bool} {v : Val} {n2 : Node} {r : Except AddErr Leaf},
      KeysOk n → add n order aels wilds chain b v = some (n2, r) →
      ∀ {qels : List Str} {l : Leaf}, MatchLeaf n qels l → MatchLeaf n2 qels l := by
  induction aels with
  | nil =>
    intro n order wilds chain b v n2 r hk h qels l hml
    rcases add_cases h with ⟨_, _, rfl, _⟩ | ⟨_, hleaf, rfl, _⟩ | ⟨_, _, habs, _⟩ |
      ⟨_, _, habs, _⟩ | ⟨_, _, habs, _⟩
    · exact hml
    · cases hml with
      | leaf h0 => rw [hleaf] at h0; exact absurd h0 (by simp)
      | star h0 => exact MatchLeaf.star (by simpa using h0)
      | edge hmem hme hsub => exact MatchLeaf.edge (by simpa using hmem) hme hsub
    · exact absurd habs (by simp)
    · exact absurd habs (by simp)
    · exact absurd habs (by simp)
  | cons ael arest ih =>
    intro n order wilds chain b v n2 r hk h qels l hml
    rcases add_cases h with ⟨habs, _⟩ | ⟨habs, _⟩ | ⟨name, rest2, heq, _, rfl, _⟩ |
      ⟨name, rest2, heq, hstar0, rfl, _⟩ | ⟨el2, rest2, heq, hns, varList, hdec, hbody⟩
    · exact absurd habs (by simp)
    · exact absurd habs (by simp)
    · exact hml
    · cases hml with
      | leaf h0 => exact MatchLeaf.leaf (by simpa using h0)
      | star h0 => rw [hstar0] at h0; exact absurd h0 (by simp)
      | edge hmem hme hsub => exact MatchLeaf.edge (by simpa using hmem) hme hsub
    · injection heq with he1 he2
      subst he1
      subst he2
      obtain ⟨hnd, hksub⟩ : List.Nodup (n.edges.map Prod.fst) ∧
          (∀ k e, (k, e) ∈ n.edges → KeysOk e.node) := by
        cases hk with
        | mk h0 h1 => exact ⟨h0, h1⟩
      rcases hbody with ⟨e0, child, hlook, hrec, rfl⟩ | ⟨child, hlook, hrec, rfl⟩
      · cases hml with
        | leaf h0 => exact MatchLeaf.leaf (by simpa using h0)
        | star h0 => exact MatchLeaf.star (by simpa using h0)
        | edge hmem hme hsub =>
          rename_i kq eq0 elq restq varsq
          by_cases hkq : kq = stripSemi ael
          · subst hkq
            have he0 : eq0 = e0 := by
              have h5 := edgesLookup_of_mem_nodup hnd hmem
              rw [hlook] at h5
              exact (Option.some.inj h5).symm
            rw [he0] at hme hsub
            have hmem2 := @edgesUpdate_mem_self n.edges (stripSemi ael) e0
              (e0.setNode child) hlook
            have hmatch : matchEdge (e0.setNode child) elq = some varsq := by
              rw [matchEdge_setNode]
              exact hme
            exact MatchLeaf.edge (k := stripSemi ael) (by simpa using hmem2) hmatch
              (by
                simp only [Edge.setNode_node]
                exact ih (hksub _ _ (he0 ▸ hmem)) hrec hsub)
          · exact MatchLeaf.edge (k := kq)
              (by simpa using edgesUpdate_mem_other hmem hkq) hme hsub
      · cases hml with
        | leaf h0 => exact MatchLeaf.leaf (by simpa using h0)
        | star h0 => exact MatchLeaf.star (by simpa using h0)
        | edge hmem hme hsub =>
          rename_i kq eq0 elq restq varsq
          exact MatchLeaf.edge (k := kq)
            (by
              simp only [Node.edges_mk]
              exact List.mem_append.2 (Or.inl hmem)) hme hsub

/-- Trees reachable from `t` by further root `Add` calls. -/
inductive BuiltFrom : Node → Node → Prop where
  | refl (t : Node) : BuiltFrom t t
  | step {t t1 t2 : Node} {key : Str} {v : Val} {r : Except AddErr Leaf} :
      BuiltFrom t t1 → Add t1 key v = some (t2, r) → BuiltFrom t t2

theorem built_of_builtFrom {t t2 : Node} (hb : Built t) (h : BuiltFrom t t2) :
    Built t2 := by
  induction h with
  | refl => exact hb
  | step h hadd ih => exact Built.step ih hadd

theorem matchLeaf_congr {n m : Node} {qels : List Str} {l : Leaf}
    (he : n.edges = m.edges) (hl : n.leaf = m.leaf) (hs : n.star = m.star)
    (h : MatchLeaf n qels l) : MatchLeaf m qels l := by
  cases h with
  | leaf h0 => exact MatchLeaf.leaf (hl ▸ h0)
  | star h0 => exact MatchLeaf.star (hs ▸ h0)
  | edge hmem hme hsub => exact MatchLeaf.edge (he ▸ hmem) hme hsub

theorem Add_matchLeaf_mono {t t2 : Node} {key : Str} {v : Val}
    {r : Except AddErr Leaf} (hk : KeysOk t) (h : Add t key v = some (t2, r))
    {qels : List Str} {l : Leaf} (hml : MatchLeaf t qels l) : MatchLeaf t2 qels l := by
  cases key with
  | nil => exact absurd h (by simp [Add])
  | cons c k =>
    by_cases hc : c = '/'
    · subst hc
      simp only [Add, if_neg (by simp : ¬('/' ≠ '/'))] at h
      exact add_matchLeaf_mono (keysOk_congr (by simp) hk) h
        (matchLeaf_congr (by simp) (by simp) (by simp) hml)
    · rw [Add.eq_def] at h
      simp only [if_pos hc] at h
      simp only [Option.some.injEq, Prod.mk.injEq] at h
      obtain ⟨rfl, _⟩ := h
      exact hml

theorem builtFrom_matchLeaf_mono {t t2 : Node} (hb : Built t) (h : BuiltFrom t t2)
    {qels : List Str} {l : Leaf} (hml : MatchLeaf t qels l) : MatchLeaf t2 qels l := by
  induction h with
  | refl => exact hml
  | step h hadd ih =>
    exact Add_matchLeaf_mono (built_keys (built_of_builtFrom hb h)) hadd ih

theorem splitPath_sub {key el : Str} (h : el ∈ (splitPath key).1) :
    el ∈ splitChar '/' key := by
  rw [splitPath] at h
  split at h
  · rename_i heq
    have h2 := List.dropLast_subset _ h
    revert h2
    split
    · rename_i rest heq2
      intro h2
      rw [heq2]
      exact List.mem_cons_of_mem _ h2
    · intro h2
      exact h2
  · revert h
    split
    · rename_i rest heq2
      intro h
      rw [heq2]
      exact List.mem_cons_of_mem _ h
    · intro h
      exact h

def c2t1 : Node := addOk Node.new (str "/ab") 1

def c2t : Node := addOk c2t1 (str "/abc") 2

def c2lab : Leaf := (addLeaf Node.new (str "/ab") 1).getD ⟨0, [], 0, false, []⟩

def c2labc : Leaf := (addLeaf c2t1 (str "/abc") 2).getD ⟨0, [], 0, false, []⟩

/-- Counterexample to C2 as stated: with `/ab` registered before `/abc`
(both wildcard-free), `Find("/abc")` does not return the leaf registered for
`/abc` — a literal edge matches any segment that merely has its text as a
prefix, so the older `/ab` leaf (order 1) wins. -/
theorem literal_find_cx :
    addLeaf c2t1 (str "/abc") 2 = some c2labc ∧
    Find c2t (str "/abc") = (some c2lab, []) ∧
    c2lab ≠ c2labc := by
  refine ⟨rfl, rfl, ?_⟩
  decide

/-- C2 (amended): for every wildcard-free pattern `p` registered by a
successful `Add` into a root-built tree, and after any further root `Add`
calls, `Find(p)` returns a (non-null) leaf whose insertion order is at most
that of `p`'s own leaf — `p`'s leaf always matches its own path, but an
earlier-registered pattern whose key is a prefix of a segment of `p` can
shadow it, and the returned expansion list need not be empty. -/
theorem literal_find_min (t t1 t2 : Node) (p : Str) (v : Val) (l : Leaf)
    (hb : Built t) (hcolon : ':' ∉ p) (hstar2 : '*' ∉ p)
    (h1 : Add t p v = some (t1, .ok l)) (h2 : BuiltFrom t1 t2) :
    ∃ l2 ex, Find t2 p = (some l2, ex) ∧ l2.order ≤ l.order := by
  cases p with
  | nil => exact absurd h1 (by simp [Add])
  | cons c k =>
    by_cases hc : c = '/'
    · subst hc
      have hseg : ∀ el ∈ (splitPath ('/' :: k)).1, ':' ∉ el ∧ el.head? ≠ some '*' := by
        intro el hel
        have hsub : ∀ x ∈ el, x ∈ ('/' :: k : Str) :=
          fun x hx => splitChar_chars el (splitPath_sub hel) x hx
        constructor
        · exact fun hx => hcolon (hsub ':' hx)
        · intro hx
          cases el with
          | nil => simp at hx
          | cons c2 k2 =>
            simp only [List.head?_cons, Option.some.injEq] at hx
            subst hx
            exact hstar2 (hsub '*' (List.mem_cons_self _ _))
      have h1b := h1
      simp only [Add, if_neg (by simp : ¬('/' ≠ '/'))] at h1b
      have hml1 : MatchLeaf t1 (splitPath ('/' :: k)).1 l :=
        add_self_match (shapeInv_congr (by simp) (built_shape hb)) hseg h1b
      have hb1 : Built t1 := Built.step hb h1
      have hml2 : MatchLeaf t2 (splitPath ('/' :: k)).1 l :=
        builtFrom_matchLeaf_mono hb1 h2 hml1
      have hb2 : Built t2 := built_of_builtFrom hb1 h2
      have hcorrect := @findF_correct (splitPath ('/' :: k)).1.length t2
        (splitPath ('/' :: k)).1 [] (le_refl _) (built_minInv hb2).1
      obtain ⟨l2, ex2, hf, hord⟩ := hcorrect.2 l hml2
      refine ⟨l2, ex2, ?_, hord⟩
      simp only [Find, if_neg (by simp : ¬('/' ≠ '/')), find]
      exact hf
    · rw [Add.eq_def] at h1
      simp only [if_pos hc] at h1
      exact absurd h1 (by simp)

/-- Witness for C2 (amended) on the counterexample trees: `/abc` is
registered second into the tree already holding `/ab`. -/
theorem literal_find_min_witness :
    (':' ∉ str "/abc") ∧ ('*' ∉ str "/abc") ∧ Built c2t1 ∧
    (∃ l2 ex, Find c2t (str "/abc") = (some l2, ex) ∧ l2.order ≤ c2labc.order) := by
  have h0 : Add Node.new (str "/ab") 1 = some (c2t1, .ok c2lab) := rfl
  have h1 : Add c2t1 (str "/abc") 2 = some (c2t, .ok c2labc) := rfl
  have hb : Built c2t1 := Built.step Built.base h0
  refine ⟨by decide, by decide, hb, ?_⟩
  exact literal_find_min c2t1 c2t c2t (str "/abc") 2 c2labc hb (by decide) (by decide)
    h1 (BuiltFrom.refl c2t)

/-! ## C3: reversal round trip -/

def c3t : Node := addOk Node.new (str "/a:[2,3]v;b") 7

def c3l : Leaf := (addLeaf Node.new (str "/a:[2,3]v;b") 7).getD ⟨0, [], 0, false, []⟩

/-- Counterexample to C3 as stated: register only `/a:[2,3]v;b` and bind
`v = "cb"` (length 2, within bounds).  `Reverse` produces `/acbb` consuming
`v`, but `Find("/acbb")` locates the padding `b` at the first occurrence
inside the substituted value, binds a too-short variable, fails the bound
check and returns no leaf at all — not the round-tripped leaf. -/
theorem roundtrip_cx :
    addLeaf Node.new (str "/a:[2,3]v;b") 7 = some c3l ∧
    Reverse (some c3l) [(str "v", str "cb")] = (str "/acbb", [], []) ∧
    Find c3t (str "/acbb") = (none, []) := ⟨rfl, rfl, rfl⟩

theorem splitChar_not_mem {c : Char} {s : Str} (h : c ∉ s) : splitChar c s = [s] := by
  induction s with
  | nil => rfl
  | cons ch rest ih =>
    have hch : ch ≠ c := fun h2 => h (h2 ▸ List.mem_cons_self ch rest)
    have hrest : c ∉ rest := fun h2 => h (List.mem_cons_of_mem ch h2)
    rw [splitChar, ih hrest]
    simp [hch]

theorem splitChar_sep_not_mem {c : Char} {s : Str} :
    ∀ g ∈ splitChar c s, c ∉ g := by
  induction s with
  | nil =>
    intro g hg
    simp [splitChar] at hg
    simp [hg]
  | cons ch rest ih =>
    intro g hg
    rcases hsp : splitChar c rest with _ | ⟨g0, gs0⟩
    · simp [splitChar, hsp] at hg
      simp [hg]
    · simp only [splitChar, hsp] at hg
      by_cases hc : ch = c
      · rw [if_pos hc] at hg
        rcases List.mem_cons.1 hg with rfl | hg2
        · simp
        · exact ih g (hsp ▸ hg2)
      · rw [if_neg hc] at hg
        rcases List.mem_cons.1 hg with rfl | hg2
        · intro hx
          rcases List.mem_cons.1 hx with rfl | hx2
          · exact hc rfl
          · exact ih g0 (hsp ▸ List.mem_cons_self g0 gs0) hx2
        · exact ih g (hsp ▸ List.mem_cons_of_mem g0 hg2)

theorem splitChar_cons_sep (c : Char) (s : Str) :
    splitChar c (c :: s) = [] :: splitChar c s := by
  rcases hsp : splitChar c s with _ | ⟨g, gs⟩
  · obtain ⟨g2, gs2, h2, _⟩ := splitChar_head c s
    rw [hsp] at h2
    exact absurd h2 (by simp)
  · rw [splitChar, hsp]
    simp

theorem splitChar_append_sep {c : Char} {e : Str} (t : Str) (h : c ∉ e) :
    splitChar c (e ++ c :: t) = e :: splitChar c t := by
  induction e with
  | nil => simpa using splitChar_cons_sep c t
  | cons ch erest ih =>
    have hch : ch ≠ c := fun h2 => h (h2 ▸ List.mem_cons_self ch erest)
    have herest : c ∉ erest := fun h2 => h (List.mem_cons_of_mem ch h2)
    rw [List.cons_append, splitChar, ih herest]
    simp [hch]

theorem splitChar_snoc (c : Char) (s : Str) :
    splitChar c (s ++ [c]) = splitChar c s ++ [[]] := by
  induction s with
  | nil =>
    rw [List.nil_append, splitChar_cons_sep]
    rfl
  | cons ch rest ih =>
    rw [List.cons_append, splitChar, ih, splitChar]
    rcases hsp : splitChar c rest with _ | ⟨g, gs⟩
    · obtain ⟨g2, gs2, h2, _⟩ := splitChar_head c rest
      rw [hsp] at h2
      exact absurd h2 (by simp)
    · by_cases hc : ch = c <;> simp [hc]

theorem joinSlash_split {els : List Str} (hne : els ≠ [])
    (h : ∀ el ∈ els, '/' ∉ el) : splitChar '/' (joinSlash els) = els := by
  induction els with
  | nil => exact absurd rfl hne
  | cons e rest ih =>
    cases rest with
    | nil =>
      rw [joinSlash]
      exact splitChar_not_mem (h e (List.mem_cons_self e []))
    | cons x xs =>
      rw [joinSlash, splitChar_append_sep _ (h e (List.mem_cons_self e _))]
      · rw [ih (List.cons_ne_nil x xs) (fun el hel => h el (List.mem_cons_of_mem e hel))]
      · exact List.cons_ne_nil x xs

theorem getLast_mem_of {l : Str} {c : Char} (h : l.getLast? = some c) : c ∈ l := by
  induction l with
  | nil => simp at h
  | cons x xs ih =>
    cases xs with
    | nil =>
      simp at h
      simp [h]
    | cons y ys =>
      rw [List.getLast?_cons_cons] at h
      exact List.mem_cons_of_mem _ (ih h)

theorem stripSemi_eq_self {el : Str} (h : ';' ∉ el) : stripSemi el = el := by
  rw [stripSemi]
  rcases hgl : el.getLast? with _ | c
  · rfl
  · have hc : c ≠ ';' := fun hc => h (hc ▸ getLast_mem_of hgl)
    simp [hc]

/-- The edge frame recorded while descending one wildcard-free segment. -/
def litFrame (el : Str) : EdgeFrame := ⟨[splitPad el], [], false⟩

/-- The chain (deepest edge first) of a leaf reached through wildcard-free
segments only. -/
def litChain (els : List Str) : List EdgeFrame := (els.map litFrame).reverse

theorem litChain_cons (el : Str) (rest : List Str) :
    litChain (el :: rest) = litChain rest ++ [litFrame el] := by
  simp [litChain]

/-- The single-branch tree produced by one successful wildcard-free `add`
into a childless node with counter `c`. -/
def buildSpine : List Str → Nat → Nat → Leaf → Node
  | [], c, _, l => .mk [] (some l) none c
  | el :: rest, c, order, l =>
    .mk [(el, .mk (buildSpine rest 0 order l) [splitPad el] [] false order)]
      none none c

/-- The canonical path of a wildcard-free segment list: each segment
prefixed by `/`. -/
def litPath : List Str → Str
  | [] => []
  | el :: rest => '/' :: (el ++ litPath rest)

theorem litPath_join {els : List Str} (hne : els ≠ []) :
    litPath els = '/' :: joinSlash els := by
  induction els with
  | nil => exact absurd rfl hne
  | cons e rest ih =>
    cases rest with
    | nil => simp [litPath, joinSlash]
    | cons x xs =>
      rw [litPath, ih (List.cons_ne_nil x xs),
        show joinSlash (e :: x :: xs) = e ++ '/' :: joinSlash (x :: xs) from rfl]

theorem flatWilds_append (xs ys : List EdgeFrame) :
    flatWilds (xs ++ ys) = flatWilds xs ++ flatWilds ys := by
  induction xs with
  | nil => simp [flatWilds]
  | cons f fs ih => simp [flatWilds, ih]

theorem flatWilds_lit (els : List Str) : flatWilds (litChain els) = [] := by
  induction els with
  | nil => rfl
  | cons el rest ih =>
    rw [litChain_cons, flatWilds_append, ih]
    rfl

theorem svPath_append (xs ys : List EdgeFrame) :
    ∀ vars : VarMap, svPath (xs ++ ys) vars =
      svPath ys (unusedOf (flatWilds xs) vars) ++ svPath xs vars := by
  induction xs with
  | nil =>
    intro vars
    simp [svPath, flatWilds, unusedOf]
  | cons f fs ih =>
    intro vars
    simp only [List.cons_append, svPath, List.append_eq, ih, flatWilds,
      unusedOf_append, List.append_assoc]

theorem svPath_lit {els : List Str} (h : ∀ el ∈ els, '|' ∉ el) :
    ∀ vars : VarMap, svPath (litChain els) vars = litPath els := by
  induction els with
  | nil =>
    intro vars
    rfl
  | cons el rest ih =>
    intro vars
    have hel : '|' ∉ el := h el (List.mem_cons_self el rest)
    have hrest : ∀ e2 ∈ rest, '|' ∉ e2 :=
      fun e2 he2 => h e2 (List.mem_cons_of_mem el he2)
    rw [litChain_cons, svPath_append, flatWilds_lit, ih hrest]
    show svPath [litFrame el] vars ++ litPath rest = litPath (el :: rest)
    rw [litPath]
    simp [svPath, svRender, litFrame, splitPad, splitChar_not_mem hel, unusedOf]

/-- A wildcard-free `add` into a childless node builds exactly the spine
`buildSpine` and returns the leaf whose chain is `litChain` of the segments
(on top of the chain accumulated so far). -/
theorem add_lit_spine {els : List Str} :
    ∀ (c : Nat) {order : Nat} {wilds : List Wildcard} {chain : List EdgeFrame}
      {b : Bool} {v : Val},
      (∀ el ∈ els, ':' ∉ el ∧ ';' ∉ el ∧ (∀ name, el ≠ '*' :: name)) →
      add (Node.mk [] none none c) order els wilds chain b v =
        some (buildSpine els c order ⟨v, wilds, order, b, litChain els ++ chain⟩,
          .ok ⟨v, wilds, order, b, litChain els ++ chain⟩) := by
  induction els with
  | nil =>
    intro c order wilds chain b v _
    simp [add, buildSpine, litChain]
  | cons el rest ih =>
    intro c order wilds chain b v hclean
    have hcolon : ':' ∉ el := (hclean el (List.mem_cons_self el rest)).1
    have hsemi : ';' ∉ el := (hclean el (List.mem_cons_self el rest)).2.1
    have hstar : ∀ name, el ≠ '*' :: name := (hclean el (List.mem_cons_self el rest)).2.2
    have hrest : ∀ e2 ∈ rest, ':' ∉ e2 ∧ ';' ∉ e2 ∧ (∀ name, e2 ≠ '*' :: name) :=
      fun e2 he2 => hclean e2 (List.mem_cons_of_mem el he2)
    have hss : stripSemi el = el := stripSemi_eq_self hsemi
    simp only [add, hss, unzip_single hcolon, Node.edges_mk, Node.leaf_mk,
      Node.star_mk, Node.leafs_mk]
    show (match add (Node.mk [] none none 0) order rest (wilds ++ [])
            (litFrame el :: chain) b v with
          | none => none
          | some (child, res) =>
            some (Node.mk [(el, Edge.mk child [splitPad el] [] false order)]
              none none c, res)) =
        some (buildSpine (el :: rest) c order
            ⟨v, wilds, order, b, litChain (el :: rest) ++ chain⟩,
          .ok ⟨v, wilds, order, b, litChain (el :: rest) ++ chain⟩)
    rw [ih 0 hrest]
    simp only [buildSpine, litChain_cons, List.append_nil, List.append_assoc,
      List.singleton_append]

/-- The matcher walks a wildcard-free spine back down on its own segments,
reaching the stored leaf with no expansions. -/
theorem find_spine {els : List Str} :
    ∀ (c : Nat) {order : Nat} {l : Leaf} (exp : List Str),
      (∀ el ∈ els, ';' ∉ el) →
      findF els.length (buildSpine els c order l) els exp = (some l, exp) := by
  induction els with
  | nil =>
    intro c order l exp _
    rfl
  | cons el rest ih =>
    intro c order l exp hclean
    have hsemi : ';' ∉ el := hclean el (List.mem_cons_self el rest)
    have hrest : ∀ e2 ∈ rest, ';' ∉ e2 :=
      fun e2 he2 => hclean e2 (List.mem_cons_of_mem el he2)
    rw [List.length_cons, findF_succ_eq]
    simp only [buildSpine, Node.star_mk, Node.edges_mk]
    rw [List.foldl_cons, List.foldl_nil]
    have hme : matchEdge
        (Edge.mk (buildSpine rest 0 order l) [splitPad el] [] false order) el =
        some [] := by
      apply matchEdge_lit
      · rw [Edge.padding_mk, stripSemi_eq_self hsemi]
      · rw [Edge.wildcards_mk]
      · rw [Edge.wildend_mk]
    rw [findStep_eq_of hme (fun la hla => by cases hla)]
    rw [show (el, Edge.mk (buildSpine rest 0 order l) [splitPad el] [] false
      order).2.node = buildSpine rest 0 order l from rfl]
    rw [ih 0 (exp ++ []) hrest]
    simp

theorem splitPath_slash_of_last_empty {k : Str}
    (h : (splitChar '/' k).getLast? = some []) :
    splitPath ('/' :: k) = ((splitChar '/' k).dropLast, true) := by
  simp only [splitPath, splitChar_cons_sep]
  rw [h]

theorem splitPath_slash_of_last_ne {k : Str}
    (h : (splitChar '/' k).getLast? ≠ some []) :
    splitPath ('/' :: k) = (splitChar '/' k, false) := by
  simp only [splitPath, splitChar_cons_sep]

theorem splitPath_litPath_false {els : List Str} (hne : els ≠ [])
    (hlast : els.getLast? ≠ some []) (hsl : ∀ el ∈ els, '/' ∉ el) :
    splitPath (litPath els) = (els, false) := by
  rw [litPath_join hne,
    splitPath_slash_of_last_ne (by rw [joinSlash_split hne hsl]; exact hlast),
    joinSlash_split hne hsl]

theorem splitPath_litPath_true {els : List Str} (hsl : ∀ el ∈ els, '/' ∉ el) :
    splitPath (litPath els ++ ['/']) = (els, true) := by
  cases els with
  | nil => rfl
  | cons e tl =>
    rw [litPath_join (List.cons_ne_nil e tl), List.cons_append,
      splitPath_slash_of_last_empty (by
        rw [splitChar_snoc, joinSlash_split (List.cons_ne_nil e tl) hsl,
          List.getLast?_concat])]
    rw [splitChar_snoc, joinSlash_split (List.cons_ne_nil e tl) hsl,
      List.dropLast_concat]

theorem Find_slash (n : Node) (k : Str) :
    Find n ('/' :: k) = find n (splitPath ('/' :: k)).1 [] := by
  simp [Find]

/-- C3 (amended): the reversal round trip holds on the wildcard-free
fragment.  For the leaf registered by a single successful `Add` of a pattern
with no wildcard markup (no `:`, `*`, `|` or `;`), and for every variable
map, `Reverse` leaves the map untouched with no missing wildcards, and
`Find` on the produced path returns exactly that leaf with an empty
expansion list.  (As stated the claim is false for wildcard patterns:
`roundtrip_cx` reverses `/a:[2,3]v;b` with the in-bounds value `v = "cb"` to
`/acbb`, on which `Find` returns no leaf, because the matcher locates the
trailing padding `b` at its first occurrence inside the substituted
value.) -/
theorem roundtrip_single_pattern (p : Str) (v : Val) (t : Node) (l : Leaf)
    (vars : VarMap) (hcolon : ':' ∉ p) (hstar : '*' ∉ p) (hbar : '|' ∉ p)
    (hsemi : ';' ∉ p) (h : Add Node.new p v = some (t, .ok l)) :
    (Reverse (some l) vars).2.1 = vars ∧ (Reverse (some l) vars).2.2 = [] ∧
    Find t (Reverse (some l) vars).1 = (some l, []) := by
  cases p with
  | nil => exact absurd h (by simp [Add])
  | cons c k =>
    by_cases hc : c = '/'
    case neg =>
      rw [Add, if_pos (by simpa using hc)] at h
      simp at h
    case pos =>
      subst hc
      simp only [Add] at h
      rw [if_neg (by simp)] at h
      rcases hsp : splitPath ('/' :: k) with ⟨els, b⟩
      rw [hsp] at h
      have h2 : add (Node.mk [] none none 1) 1 els [] [] b v =
          some (t, .ok l) := h
      have hmem1 : ∀ el ∈ els, el ∈ (splitPath ('/' :: k)).1 := by
        intro el hel
        rw [hsp]
        exact hel
      have hsl : ∀ el ∈ els, '/' ∉ el := fun el hel =>
        splitChar_sep_not_mem el (splitPath_sub (hmem1 el hel))
      have hchar : ∀ el ∈ els, ∀ x ∈ el, x ∈ ('/' :: k) := fun el hel x hx =>
        splitChar_chars el (splitPath_sub (hmem1 el hel)) x hx
      have hclean : ∀ el ∈ els, ':' ∉ el ∧ ';' ∉ el ∧
          (∀ name, el ≠ '*' :: name) := by
        intro el hel
        refine ⟨fun hx => hcolon (hchar el hel ':' hx),
          fun hx => hsemi (hchar el hel ';' hx), ?_⟩
        intro name hn
        exact hstar (hchar el hel '*' (by rw [hn]; exact List.mem_cons_self _ _))
      have hbar2 : ∀ el ∈ els, '|' ∉ el := fun el hel hx =>
        hbar (hchar el hel '|' hx)
      have hsemi2 : ∀ el ∈ els, ';' ∉ el := fun el hel => (hclean el hel).2.1
      have hspine := @add_lit_spine els 1 1 [] [] b v hclean
      have heq := Option.some.inj (h2.symm.trans hspine)
      have ht : t = buildSpine els 1 1 ⟨v, [], 1, b, litChain els ++ []⟩ :=
        congrArg Prod.fst heq
      have hl : l = ⟨v, [], 1, b, litChain els ++ []⟩ := by
        have h3 := congrArg Prod.snd heq
        simpa using h3
      subst ht
      subst hl
      have hrev : Reverse (some ⟨v, [], 1, b, litChain els ++ []⟩) vars =
          (litPath els ++ (if b then ['/'] else []), vars, []) := by
        show reverseGo (litChain els ++ []) [] vars [] b = _
        rw [List.append_nil, reverseGo_spec, flatWilds_lit, svPath_lit hbar2]
        simp [unusedOf, missingOf]
      refine ⟨by rw [hrev], by rw [hrev], ?_⟩
      rw [hrev]
      show Find (buildSpine els 1 1 ⟨v, [], 1, b, litChain els ++ []⟩)
        (litPath els ++ (if b then ['/'] else [])) =
        (some ⟨v, [], 1, b, litChain els ++ []⟩, [])
      by_cases hE : (splitChar '/' k).getLast? = some []
      · have hsp2 := splitPath_slash_of_last_empty hE
        rw [hsp] at hsp2
        have hb : b = true := congrArg Prod.snd hsp2
        subst hb
        cases els with
        | nil =>
          show Find (buildSpine [] 1 1 ⟨v, [], 1, true, litChain [] ++ []⟩)
            ['/'] = _
          rfl
        | cons e tl =>
          have hk2 : litPath (e :: tl) ++ (if true then ['/'] else []) =
              '/' :: (joinSlash (e :: tl) ++ ['/']) := by
            rw [litPath_join (List.cons_ne_nil e tl)]
            rfl
          rw [hk2, Find_slash, ← List.cons_append,
            ← litPath_join (List.cons_ne_nil e tl),
            splitPath_litPath_true hsl]
          exact @find_spine (e :: tl) 1 1 _ [] hsemi2
      · have hsp2 := splitPath_slash_of_last_ne hE
        rw [hsp] at hsp2
        have hb : b = false := congrArg Prod.snd hsp2
        have hels : els = splitChar '/' k := congrArg Prod.fst hsp2
        have hne : els ≠ [] := by
          obtain ⟨g, gs, hEsh, _⟩ := splitChar_head '/' k
          rw [hels, hEsh]
          exact List.cons_ne_nil g gs
        have hlast : els.getLast? ≠ some [] := by
          rw [hels]
          exact hE
        subst hb
        have hpath : litPath els ++ (if (false : Bool) then ['/'] else []) =
            '/' :: joinSlash els := by
          rw [if_neg (by simp), List.append_nil, litPath_join hne]
        rw [hpath, Find_slash, ← litPath_join hne,
          splitPath_litPath_false hne hlast hsl]
        exact @find_spine els 1 1 _ [] hsemi2

def c3wt : Node := addOk Node.new (str "/ab") 5

def c3wl : Leaf := (addLeaf Node.new (str "/ab") 5).getD ⟨0, [], 0, false, []⟩

theorem roundtrip_single_pattern_witness :
    (Reverse (some c3wl) [(str "v", str "x")]).2.1 = [(str "v", str "x")] ∧
    (Reverse (some c3wl) [(str "v", str "x")]).2.2 = [] ∧
    Find c3wt (Reverse (some c3wl) [(str "v", str "x")]).1 = (some c3wl, []) :=
  roundtrip_single_pattern (str "/ab") 5 c3wt c3wl [(str "v", str "x")]
    (by decide) (by decide) (by decide) (by decide) (by rfl)

end PathTree
